import Mathlib

/-! # KM_DeepProbe: modular arithmetic, Miller-Rabin, Pollard rho, divisor counting

A shallow embedding of `src/Code/KM_DeepProbe.cpp`.

Conventions of the embedding.

* A `u64` value is a natural number below `2^64`; every operation that can wrap in the
  C++ source carries an explicit `% 2^64` (or `% 2^128` for the `unsigned __int128`
  product of `mul_mod`).
* Loops whose trip count is bounded by the bit width (the halving loops) are written by
  structural recursion over a step budget of 64; lemmas below show that the budget is never
  what ends such a loop on 64-bit inputs.
* Loops that may not return (the rho walk and the loops that call it) take an explicit
  step budget and report `Run.spin` when it is exhausted.
* `rand()` is a stream `rnd : Nat → Nat` together with the number of values already drawn.
* The `int` counter `current_count` of `count_divisors` is a natural number that may not pass
  `INT_MAX`: the increment that would overflow it is a `fault`. The other `int` variables
  (`s`, `r`, `k`, `j`) and the sum `k + j + 2` stay at most 76.
* `double` arithmetic is kept abstract (`FloatOps`): the embedding fixes which operations
  are applied to which integers, not how they round.
-/

namespace KM

/-! ## Machine words -/

/-- The number of `u64` values, `2^64`. -/
def U64 : Nat := 18446744073709551616

/-- The number of `unsigned __int128` values, `2^128`. -/
def U128 : Nat := 340282366920938463463374607431768211456

/-! ## Outcome of a run that may not return -/

/-- Outcome of running a piece of code with a step budget: it returns a value, it performs an
operation whose behaviour is undefined in C++ (a division by zero, an overflow of an `int`),
or the budget runs out while a loop is still running. -/
inductive Run (α : Type) where
  | ret : α → Run α
  | fault : Run α
  | spin : Run α
  deriving DecidableEq, Repr

/-! ## WideMultiply and ModularPower (source lines 41-55) -/

/-- Source `mul_mod`: `(u64)((u128)a * b % m)`. The product is taken in 128 bits, reduced
modulo `m`, and truncated to 64 bits. (`m = 0` is a division by zero in the source and is
outside the domain of this definition.) -/
def mul_mod (a b m : Nat) : Nat := ((a * b) % U128 % m) % U64

/-- Loop of source `power` (lines 49-53), with a step budget. -/
def power_loop : Nat → Nat → Nat → Nat → Nat → Nat
  | 0, res, _, _, _ => res
  | fuel + 1, res, base, exp, mod =>
    if exp > 0 then
      power_loop fuel (if exp % 2 = 1 then mul_mod res base mod else res)
        (mul_mod base base mod) (exp / 2) mod
    else res

/-- Source `power`: `res = 1; base %= mod;` then square-and-multiply. A 64-bit exponent is
zero after at most 64 halvings. -/
def power (base exp mod : Nat) : Nat := power_loop 64 1 (base % mod) exp mod

/-! ## PrimalityTester (source lines 58-87) -/

/-- Loop of lines 65-68: `while (d % 2 == 0) { d /= 2; s++; }`, returning `(d, s)`. -/
def strip_twos : Nat → Nat → Nat → Nat × Nat
  | 0, d, s => (d, s)
  | fuel + 1, d, s => if d % 2 = 0 then strip_twos fuel (d / 2) (s + 1) else (d, s)

/-- Loop of lines 77-83: `for (r = 1; r < s; r++)`, given the number `s - 1` of iterations
left and the current `x`; the result is the final value of the flag `composite`. -/
def square_loop (n : Nat) : Nat → Nat → Bool
  | 0, _ => true
  | cnt + 1, x =>
    if mul_mod x x n = n - 1 then false else square_loop n cnt (mul_mod x x n)

/-- The fixed witness set of line 71. -/
def bases : List Nat := [2, 3, 5, 7, 11, 13, 17, 19, 23, 29, 31, 37]

/-- Loop of lines 72-85 over the remaining bases; the result is what `is_prime_mr` returns. -/
def witness_loop (n d s : Nat) : List Nat → Bool
  | [] => true
  | a :: rest =>
    if n ≤ a then true
    else if power a d n = 1 ∨ power a d n = n - 1 then witness_loop n d s rest
    else if square_loop n (s - 1) (power a d n) then false
    else witness_loop n d s rest

/-- Source `is_prime_mr`. -/
def is_prime_mr (n : Nat) : Bool :=
  if n < 2 then false
  else if n = 2 ∨ n = 3 then true
  else if n % 2 = 0 then false
  else witness_loop n (strip_twos 64 (n - 1) 0).1 (strip_twos 64 (n - 1) 0).2 bases

/-! ## The random source and the call log -/

/-- State threaded through the factor search: how many values `rand()` has handed out so
far, and (a ghost field, used only to state properties) the arguments of the calls to
`pollard_rho` made so far, oldest first. -/
structure World where
  rpos : Nat
  calls : List Nat
  deriving DecidableEq, Repr

/-! ## FactorFinder (source lines 90-109) -/

/-- The lambda `f` of line 95: `(mul_mod(x, x, n) + c) % n`, the sum taken in 64 bits. -/
def rho_f (n c x : Nat) : Nat := ((mul_mod x x n + c) % U64) % n

/-- The argument of `std::gcd` on line 100: `(x > y ? x - y : y - x)`. -/
def abs_diff (x y : Nat) : Nat := if x > y then x - y else y - x

/-- The `while (d == 1)` loop of lines 97-107. Arguments after the budget: `x`, `y`, `c` and
the number of `rand()` values drawn so far. On `d == n` the walk restarts from
`x = y = rand() % (n - 2) + 2` with `c = rand() % (n - 1) + 1` (all in 64 bits); a zero
divisor there is a `fault`. The result is the returned `d` and the new draw count. -/
def rho_loop (rnd : Nat → Nat) (n : Nat) : Nat → Nat → Nat → Nat → Nat → Run (Nat × Nat)
  | 0, _, _, _, _ => Run.spin
  | fuel + 1, x, y, c, r =>
    if Nat.gcd (abs_diff (rho_f n c x) (rho_f n c (rho_f n c y))) n = n then
      if (n + U64 - 2) % U64 = 0 then Run.fault
      else if (n + U64 - 1) % U64 = 0 then Run.fault
      else
        rho_loop rnd n fuel
          ((rnd r % ((n + U64 - 2) % U64) + 2) % U64)
          ((rnd r % ((n + U64 - 2) % U64) + 2) % U64)
          ((rnd (r + 1) % ((n + U64 - 1) % U64) + 1) % U64)
          (r + 2)
    else if Nat.gcd (abs_diff (rho_f n c x) (rho_f n c (rho_f n c y))) n = 1 then
      rho_loop rnd n fuel (rho_f n c x) (rho_f n c (rho_f n c y)) c r
    else Run.ret (Nat.gcd (abs_diff (rho_f n c x) (rho_f n c (rho_f n c y))) n, r)

/-- The pair `(x, y)` after `k` iterations of the loop of lines 97-107 that all find
`d == 1`; `none` when one of them finds another `d`. It serves to follow a run of `rho_loop`
over many iterations (`rho_loop_walk`). -/
def walk_to (n c : Nat) : Nat → Nat → Nat → Option (Nat × Nat)
  | 0, x, y => some (x, y)
  | k + 1, x, y =>
    if Nat.gcd (abs_diff (rho_f n c x) (rho_f n c (rho_f n c y))) n = 1 then
      walk_to n c k (rho_f n c x) (rho_f n c (rho_f n c y))
    else none

/-- A sequence of values that `rand()` may return: 91503 at the first call and 2147313311 at
every later one, both at most `RAND_MAX = 2^31 - 1`. -/
def rand_seq : Nat → Nat := fun i => if i = 0 then 91503 else 2147313311

/-- Source `pollard_rho`, with step budget `fuel` for its loop. The call is logged. -/
def pollard_rho (rnd : Nat → Nat) (fuel n : Nat) (w : World) : Run (Nat × World) :=
  if n % 2 = 0 then Run.ret (2, ⟨w.rpos, w.calls ++ [n]⟩)
  else if is_prime_mr n then Run.ret (n, ⟨w.rpos, w.calls ++ [n]⟩)
  else
    match rho_loop rnd n fuel 2 2 1 w.rpos with
    | Run.ret (d, r) => Run.ret (d, ⟨r, w.calls ++ [n]⟩)
    | Run.fault => Run.fault
    | Run.spin => Run.spin

/-! ## DivisorCounter (source lines 112-143) -/

/-- Line 119: `while (!is_prime_mr(factor)) factor = pollard_rho(factor);`. The first
argument is the budget handed to each `pollard_rho` call, the second the budget of this
loop. -/
def refine_factor (rnd : Nat → Nat) (budget : Nat) : Nat → Nat → World → Run (Nat × World)
  | 0, factor, w => if is_prime_mr factor then Run.ret (factor, w) else Run.spin
  | fuel + 1, factor, w =>
    if is_prime_mr factor then Run.ret (factor, w)
    else
      match pollard_rho rnd budget factor w with
      | Run.ret (f, w1) => refine_factor rnd budget fuel f w1
      | Run.fault => Run.fault
      | Run.spin => Run.spin

/-- Lines 120-123: `while (n % factor == 0) { factors.push_back(factor); n /= factor; }`. -/
def divide_out (factor : Nat) : Nat → Nat → List Nat → Run (Nat × List Nat)
  | 0, n, fs =>
    if factor = 0 then Run.fault
    else if n % factor = 0 then Run.spin else Run.ret (n, fs)
  | fuel + 1, n, fs =>
    if factor = 0 then Run.fault
    else if n % factor = 0 then divide_out factor fuel (n / factor) (fs ++ [factor])
    else Run.ret (n, fs)

/-- The extraction loop of lines 117-124, `while (n > 1 && !is_prime_mr(n))`. The result is
the remaining `n`, the factor list and the world. -/
def extract_loop (rnd : Nat → Nat) (budget : Nat) :
    Nat → Nat → List Nat → World → Run (Nat × List Nat × World)
  | 0, n, fs, w => if n > 1 ∧ is_prime_mr n = false then Run.spin else Run.ret (n, fs, w)
  | fuel + 1, n, fs, w =>
    if n > 1 ∧ is_prime_mr n = false then
      match pollard_rho rnd budget n w with
      | Run.ret (f0, w1) =>
        match refine_factor rnd budget budget f0 w1 with
        | Run.ret (factor, w2) =>
          match divide_out factor budget n fs with
          | Run.ret (n1, fs1) => extract_loop rnd budget fuel n1 fs1 w2
          | Run.fault => Run.fault
          | Run.spin => Run.spin
        | Run.fault => Run.fault
        | Run.spin => Run.spin
      | Run.fault => Run.fault
      | Run.spin => Run.spin
    else Run.ret (n, fs, w)

/-- Lines 114-130 of `count_divisors` for `n != 1`: the extraction loop, the push of the
remaining `n > 1`, and (when the list is not empty) `std::sort`. -/
def factor_list (rnd : Nat → Nat) (fuel n : Nat) (w : World) : Run (List Nat × World) :=
  match extract_loop rnd fuel fuel n [] w with
  | Run.ret (n1, fs, w1) =>
    Run.ret (List.insertionSort (· ≤ ·) (if n1 > 1 then fs ++ [n1] else fs), w1)
  | Run.fault => Run.fault
  | Run.spin => Run.spin

/-- The largest value of the 32-bit `int` that holds `current_count` (line 132). -/
def INT_MAX : Nat := 2147483647

/-- The grouping loop of lines 133-140 followed by line 141, on the list from index `i - 1`
on; `total` is `total_divs` (a `u64`) and `cur` is `current_count` (an `int`). With
`current_count = INT_MAX` both `current_count++` (line 135) and `current_count + 1` (lines
137 and 141) overflow the `int`, which is undefined behaviour: a `fault`. -/
def group_loop : List Nat → Nat → Nat → Run Nat
  | a :: b :: rest, total, cur =>
    if cur = INT_MAX then Run.fault
    else if b = a then group_loop (b :: rest) total (cur + 1)
    else group_loop (b :: rest) ((total * (cur + 1)) % U64) 1
  | _, total, cur =>
    if cur = INT_MAX then Run.fault else Run.ret ((total * (cur + 1)) % U64)

/-- Source `count_divisors`, with step budget `fuel` for each of its loops. -/
def count_divisors (rnd : Nat → Nat) (fuel n : Nat) (w : World) : Run (Nat × World) :=
  if n = 1 then Run.ret (1, w)
  else
    match factor_list rnd fuel n w with
    | Run.ret (fs, w1) =>
      if fs.isEmpty then Run.ret (2, w1)
      else
        match group_loop fs 1 1 with
        | Run.ret total_divs => Run.ret (total_divs, w1)
        | Run.fault => Run.fault
        | Run.spin => Run.spin
    | Run.fault => Run.fault
    | Run.spin => Run.spin

/-! ## OmegaFunction and SeriesEvaluator (source lines 148-211) -/

/-- The shift loop of lines 154-157 and 185-188: `while ((n & 1) == 0) { n >>= 1; k++; }`,
returning the odd part and `k`. On `n = 0` the source loop never ends. -/
def shift_loop : Nat → Nat → Nat → Run (Nat × Nat)
  | 0, n, k => if n &&& 1 = 0 then Run.spin else Run.ret (n, k)
  | fuel + 1, n, k => if n &&& 1 = 0 then shift_loop fuel (n >>> 1) (k + 1) else Run.ret (n, k)

/-- The `double` operations the source applies: conversion from `u64`, the literals `1.0`,
`4.0` and `1e-6`, the four arithmetic operations and `<`. -/
structure FloatOps (F : Type) where
  ofU64 : Nat → F
  one : F
  four : F
  tol : F
  add : F → F → F
  sub : F → F → F
  mul : F → F → F
  div : F → F → F
  lt : F → F → Bool

/-- The `u64` value `d_m * (k + j + 2)` of line 204 (line 160 is the case `j = 0`). -/
def omega_arg (d_m k j : Nat) : Nat := (d_m * ((k + j + 2) % U64)) % U64

/-- Source `get_omega`: `(double)(d_m * (k + 2)) - 4.0`. -/
def get_omega {F : Type} (ops : FloatOps F) (rnd : Nat → Nat) (fuel n : Nat) (w : World) :
    Run (F × World) :=
  match shift_loop 64 n 0 with
  | Run.ret (m, k) =>
    match count_divisors rnd fuel m w with
    | Run.ret (d_m, w1) => Run.ret (ops.sub (ops.ofU64 (omega_arg d_m k 0)) ops.four, w1)
    | Run.fault => Run.fault
    | Run.spin => Run.spin
  | Run.fault => Run.fault
  | Run.spin => Run.spin

/-- The thread-local cache slot of lines 192-193 together with the world, and a log `divs`
of the divisions of line 205, oldest first: an execution of line 205 at term `j` appends the
pair `(j, x)`, where `x` is the `u64` value `d_m * (k + j + 2)` of line 204, so that the
denominator of that division is `1.0 + ((double)x - 4.0)`. The log is not a variable of the
source and nothing reads it. -/
structure TState where
  cached_n : Nat
  cached_dm : Nat
  world : World
  divs : List (Nat × Nat)
  deriving DecidableEq, Repr

/-- Lines 195-202: the cache lookup, returning `d_m` and the updated state. -/
def lookup_dm (rnd : Nat → Nat) (fuel n temp_n : Nat) (st : TState) : Run (Nat × TState) :=
  if n = st.cached_n then Run.ret (st.cached_dm, st)
  else
    match count_divisors rnd fuel temp_n st.world with
    | Run.ret (d_m, w1) => Run.ret (d_m, ⟨n, d_m, w1, st.divs⟩)
    | Run.fault => Run.fault
    | Run.spin => Run.spin

/-- Lines 204-205: the new value of `prod`,
`prod * (1.0 / (1.0 + ((double)(d_m * (k + j + 2)) - 4.0)))`. -/
def next_prod {F : Type} (ops : FloatOps F) (prod : F) (d_m k j : Nat) : F :=
  ops.mul prod (ops.div ops.one
    (ops.add ops.one (ops.sub (ops.ofU64 (omega_arg d_m k j)) ops.four)))

/-- The state once line 205 has divided at term `j`, `x` being the `u64` value of line 204. -/
def log_div (st : TState) (j x : Nat) : TState :=
  ⟨st.cached_n, st.cached_dm, st.world, st.divs ++ [(j, x)]⟩

/-- The `for` loop of `calculate_T` (lines 170-209): `left` iterations remain, `j` is the
term index, `total` and `prod` the running sums. -/
def calculate_T_loop {F : Type} (ops : FloatOps F) (rnd : Nat → Nat) (fuel n : Nat) :
    Nat → Nat → F → F → TState → Run (F × TState)
  | 0, _, total, _, st => Run.ret (total, st)
  | left + 1, j, total, prod, st =>
    match shift_loop 64 n 0 with
    | Run.ret (temp_n, k) =>
      match lookup_dm rnd fuel n temp_n st with
      | Run.ret (d_m, st1) =>
        if ops.lt (next_prod ops prod d_m k j) ops.tol then
          Run.ret (ops.add total (next_prod ops prod d_m k j),
            log_div st1 j (omega_arg d_m k j))
        else
          calculate_T_loop ops rnd fuel n left (j + 1)
            (ops.add total (next_prod ops prod d_m k j)) (next_prod ops prod d_m k j)
            (log_div st1 j (omega_arg d_m k j))
      | Run.fault => Run.fault
      | Run.spin => Run.spin
    | Run.fault => Run.fault
    | Run.spin => Run.spin

/-- Source `calculate_T`. -/
def calculate_T {F : Type} (ops : FloatOps F) (rnd : Nat → Nat) (fuel n : Nat) (st : TState) :
    Run (F × TState) :=
  calculate_T_loop ops rnd fuel n 12 0 ops.one ops.one st

/-- A sequence of calls `calculate_T(n_1), calculate_T(n_2), ...` on one thread; the result
lists, for each call, the value returned and the state it leaves. -/
def run_calls {F : Type} (ops : FloatOps F) (rnd : Nat → Nat) (fuel : Nat) :
    List Nat → TState → Run (List (F × TState))
  | [], _ => Run.ret []
  | n :: ns, st =>
    match calculate_T ops rnd fuel n st with
    | Run.ret (v, st1) =>
      match run_calls ops rnd fuel ns st1 with
      | Run.ret rest => Run.ret ((v, st1) :: rest)
      | Run.fault => Run.fault
      | Run.spin => Run.spin
    | Run.fault => Run.fault
    | Run.spin => Run.spin

/-! ## Reference definitions taken from the specification -/

/-- The series of spec section 4.6 for a given `d(m)` and `k`: at most 12 terms, term `j`
multiplying the running product by `1/(1 + omega_j)` with `omega_j = d(m)(k+j+2) - 4`, the
product accumulated into a total that starts at 1, stopping early once the product is below
the tolerance. -/
def series_loop {F : Type} (ops : FloatOps F) (d_m k : Nat) : Nat → Nat → F → F → F
  | 0, _, total, _ => total
  | left + 1, j, total, prod =>
    if ops.lt (next_prod ops prod d_m k j) ops.tol then
      ops.add total (next_prod ops prod d_m k j)
    else
      series_loop ops d_m k left (j + 1)
        (ops.add total (next_prod ops prod d_m k j)) (next_prod ops prod d_m k j)

/-- Cache-free evaluation of the series for `n`, as the spec words it: write `n = 2^k m`,
obtain `d(m)` by counting the divisors of the odd part of this `n`, and sum the series. -/
def calculate_T_nocache {F : Type} (ops : FloatOps F) (rnd : Nat → Nat) (fuel n : Nat)
    (w : World) : Run (F × World) :=
  match shift_loop 64 n 0 with
  | Run.ret (m, k) =>
    match count_divisors rnd fuel m w with
    | Run.ret (d_m, w1) => Run.ret (series_loop ops d_m k 12 0 ops.one ops.one, w1)
    | Run.fault => Run.fault
    | Run.spin => Run.spin
  | Run.fault => Run.fault
  | Run.spin => Run.spin

/-- The cache invariant: the slot is empty (`cached_n = 0`), or `cached_dm` is a
value that `count_divisors` returned for the odd part of `cached_n`. -/
def CacheInv (rnd : Nat → Nat) (fuel : Nat) (st : TState) : Prop :=
  st.cached_n = 0 ∨
    ∃ m k wa wb, shift_loop 64 st.cached_n 0 = Run.ret (m, k) ∧
      count_divisors rnd fuel m wa = Run.ret (st.cached_dm, wb)

/-- Exact rational arithmetic as an instance of the `double` operations (no rounding; a
division by zero yields 0 here, where IEEE arithmetic yields an infinity or a NaN). -/
def exact_ops : FloatOps ℚ where
  ofU64 := fun n => (n : ℚ)
  one := 1
  four := 4
  tol := 1 / 1000000
  add := fun a b => a + b
  sub := fun a b => a - b
  mul := fun a b => a * b
  div := fun a b => a / b
  lt := fun a b => decide (a < b)


/-! ## Facts about the modular arithmetic -/

theorem U64_mul_U64 : U64 * U64 = U128 := by decide

theorem U64_pos : 0 < U64 := by decide

theorem mul_lt_U128 {a b : Nat} (ha : a < U64) (hb : b < U64) : a * b < U128 := by
  have h : a * b < U64 * U64 := Nat.mul_lt_mul'' ha hb
  rwa [U64_mul_U64] at h

theorem mul_mod_eq {a b m : Nat} (ha : a < U64) (hb : b < U64) (hm : 0 < m) (hm64 : m < U64) :
    mul_mod a b m = (a * b) % m := by
  unfold mul_mod
  rw [Nat.mod_eq_of_lt (mul_lt_U128 ha hb)]
  exact Nat.mod_eq_of_lt (lt_trans (Nat.mod_lt _ hm) hm64)

theorem mul_mod_lt {a b m : Nat} (ha : a < U64) (hb : b < U64) (hm : 0 < m) (hm64 : m < U64) :
    mul_mod a b m < m := by
  rw [mul_mod_eq ha hb hm hm64]
  exact Nat.mod_lt _ hm

/-- Closed form of the square-and-multiply loop when the budget covers the bit length of the
exponent. -/
theorem power_loop_eq {mod : Nat} (hm : 0 < mod) (hm64 : mod < U64) :
    ∀ (fuel res base exp : Nat), exp < 2 ^ fuel → res < mod → base < mod →
      power_loop fuel res base exp mod = (res * base ^ exp) % mod := by
  intro fuel
  induction fuel with
  | zero =>
    intro res base exp he hr _
    have h0 : exp = 0 := by simpa using he
    subst h0
    simp [power_loop, Nat.mod_eq_of_lt hr]
  | succ fuel ih =>
    intro res base exp he hr hb
    have hb64 : base < U64 := lt_trans hb hm64
    have hr64 : res < U64 := lt_trans hr hm64
    unfold power_loop
    by_cases h0 : exp > 0
    · rw [if_pos h0]
      have he2 : exp / 2 < 2 ^ fuel := by
        rw [Nat.div_lt_iff_lt_mul (by norm_num)]
        rw [pow_succ] at he
        exact he
      have hbb : mul_mod base base mod < mod := mul_mod_lt hb64 hb64 hm hm64
      have hsplit : base ^ exp = (base * base) ^ (exp / 2) * base ^ (exp % 2) := by
        rw [← pow_two, ← pow_mul, ← pow_add, Nat.div_add_mod]
      by_cases hodd : exp % 2 = 1
      · rw [if_pos hodd, ih _ _ _ he2 (mul_mod_lt hr64 hb64 hm hm64) hbb,
          mul_mod_eq hr64 hb64 hm hm64, mul_mod_eq hb64 hb64 hm hm64, hsplit, hodd, pow_one]
        rw [Nat.mul_mod, Nat.mod_mod, Nat.pow_mod, Nat.mod_mod, ← Nat.pow_mod, ← Nat.mul_mod]
        congr 1
        ring
      · have hev : exp % 2 = 0 := by omega
        rw [if_neg hodd, ih _ _ _ he2 hr hbb, mul_mod_eq hb64 hb64 hm hm64, hsplit, hev,
          pow_zero, mul_one]
        rw [Nat.mul_mod, Nat.pow_mod, Nat.mod_mod, ← Nat.pow_mod, ← Nat.mul_mod]
    · have h0 : exp = 0 := by omega
      subst h0
      simp [Nat.mod_eq_of_lt hr]

theorem power_eq {base exp mod : Nat} (he : exp < U64) (hm : 2 ≤ mod) (hm64 : mod < U64) :
    power base exp mod = base ^ exp % mod := by
  unfold power
  have h64 : exp < 2 ^ 64 := by unfold U64 at he; omega
  rw [power_loop_eq (by omega) hm64 64 1 (base % mod) exp h64 (by omega)
    (Nat.mod_lt _ (by omega)), one_mul, ← Nat.pow_mod]


/-! ## Miller-Rabin accepts every prime -/

theorem strip_twos_spec : ∀ (fuel d s : Nat),
    (strip_twos fuel d s).1 * 2 ^ (strip_twos fuel d s).2 = d * 2 ^ s := by
  intro fuel
  induction fuel with
  | zero => intro d s; rfl
  | succ fuel ih =>
    intro d s
    unfold strip_twos
    by_cases h : d % 2 = 0
    · rw [if_pos h, ih, pow_succ]
      have h2 : d / 2 * 2 = d := by omega
      calc d / 2 * (2 ^ s * 2) = d / 2 * 2 * 2 ^ s := by ring
        _ = d * 2 ^ s := by rw [h2]
    · rw [if_neg h]

theorem strip_twos_fst_le : ∀ (fuel d s : Nat), (strip_twos fuel d s).1 ≤ d := by
  intro fuel
  induction fuel with
  | zero => intro d s; exact le_refl _
  | succ fuel ih =>
    intro d s
    unfold strip_twos
    by_cases h : d % 2 = 0
    · rw [if_pos h]
      exact le_trans (ih _ _) (Nat.div_le_self _ _)
    · rw [if_neg h]

/-- The halving loop of `is_prime_mr` ends by its own test: on `0 < d < 2^fuel` the value it
leaves is odd. -/
theorem strip_twos_odd : ∀ (fuel d s : Nat), 0 < d → d < 2 ^ fuel →
    (strip_twos fuel d s).1 % 2 = 1 := by
  intro fuel
  induction fuel with
  | zero =>
    intro d s h0 h1
    rw [pow_zero] at h1
    omega
  | succ fuel ih =>
    intro d s h0 h1
    unfold strip_twos
    by_cases h : d % 2 = 0
    · rw [if_pos h]
      rw [pow_succ] at h1
      exact ih _ _ (by omega) (by omega)
    · rw [if_neg h]
      show d % 2 = 1
      omega

/-- In a ring without zero divisors, a `2^s`-th root of one is one, or one of its iterated
squares before the `s`-th is minus one. -/
theorem root_chain {K : Type} [Ring K] [NoZeroDivisors K] (X : K) :
    ∀ s : Nat, X ^ (2 ^ s) = 1 → X = 1 ∨ ∃ r, r < s ∧ X ^ (2 ^ r) = -1 := by
  intro s
  induction s with
  | zero => intro h; left; simpa using h
  | succ s ih =>
    intro h
    have hsq : (X ^ (2 ^ s)) ^ 2 = 1 := by rw [← pow_mul, ← pow_succ]; exact h
    rcases sq_eq_one_iff.mp hsq with h1 | h1
    · rcases ih h1 with h2 | ⟨r, hr, h2⟩
      · exact Or.inl h2
      · exact Or.inr ⟨r, Nat.lt_succ_of_lt hr, h2⟩
    · exact Or.inr ⟨s, Nat.lt_succ_self s, h1⟩

theorem square_loop_false {n : Nat} (hn : 2 ≤ n) (hn64 : n < U64) :
    ∀ (cnt x : Nat), x < n → (∃ r, 1 ≤ r ∧ r ≤ cnt ∧ x ^ (2 ^ r) % n = n - 1) →
      square_loop n cnt x = false := by
  intro cnt
  induction cnt with
  | zero => rintro x _ ⟨r, h1, h2, _⟩; omega
  | succ cnt ih =>
    rintro x hx ⟨r, h1, h2, h3⟩
    have hx64 : x < U64 := lt_trans hx hn64
    have hmm : mul_mod x x n = x * x % n := mul_mod_eq hx64 hx64 (by omega) hn64
    unfold square_loop
    by_cases h : mul_mod x x n = n - 1
    · rw [if_pos h]
    · rw [if_neg h]
      have hr : r ≠ 1 := by
        rintro rfl
        apply h
        rw [hmm, ← h3]
        norm_num [pow_two]
      apply ih _ (by rw [hmm]; exact Nat.mod_lt _ (by omega))
      refine ⟨r - 1, by omega, by omega, ?_⟩
      rw [hmm, ← Nat.pow_mod, ← pow_two, ← pow_mul, ← pow_succ', ← h3]
      congr 3
      omega

theorem natCast_eq_one_iff {n y : Nat} (hn : 2 ≤ n) (hy : y < n) :
    ((y : ZMod n) = 1) ↔ y = 1 := by
  have h := ZMod.natCast_eq_natCast_iff' y 1 n
  rw [Nat.cast_one] at h
  rw [h, Nat.mod_eq_of_lt hy, Nat.mod_eq_of_lt (by omega)]

theorem natCast_eq_neg_one_iff {n y : Nat} (hn : 2 ≤ n) (hy : y < n) :
    ((y : ZMod n) = -1) ↔ y = n - 1 := by
  have hcast : ((n - 1 : Nat) : ZMod n) = -1 := by
    rw [Nat.cast_sub (by omega)]
    simp
  rw [← hcast, ZMod.natCast_eq_natCast_iff', Nat.mod_eq_of_lt hy, Nat.mod_eq_of_lt (by omega)]

theorem witness_loop_of_prime {n d s : Nat} (hp : Nat.Prime n) (hn64 : n < U64)
    (hds : d * 2 ^ s = n - 1) :
    ∀ l : List Nat, (∀ a ∈ l, 0 < a) → witness_loop n d s l = true := by
  have hn2 : 2 ≤ n := hp.two_le
  haveI : Fact n.Prime := ⟨hp⟩
  have hd64 : d < U64 := by
    have : d ≤ n - 1 := by
      rw [← hds]
      exact Nat.le_mul_of_pos_right _ (by positivity)
    omega
  intro l
  induction l with
  | nil => intro _; rfl
  | cons a rest ih =>
    intro hl
    have hrest := ih (fun b hb => hl b (List.mem_cons_of_mem _ hb))
    have ha := hl a (List.mem_cons_self _ _)
    unfold witness_loop
    by_cases h1 : n ≤ a
    · rw [if_pos h1]
    · rw [if_neg h1]
      have hpow : power a d n = a ^ d % n := power_eq hd64 hn2 hn64
      have hlt : a ^ d % n < n := Nat.mod_lt _ (by omega)
      have hane : (a : ZMod n) ≠ 0 := by
        intro h0
        rw [ZMod.natCast_zmod_eq_zero_iff_dvd] at h0
        have := Nat.le_of_dvd ha h0
        omega
      have hone : ((a : ZMod n) ^ d) ^ (2 ^ s) = 1 := by
        rw [← pow_mul, hds]
        exact ZMod.pow_card_sub_one_eq_one hane
      have hcast : ∀ e : Nat, ((a ^ e % n : Nat) : ZMod n) = (a : ZMod n) ^ e := by
        intro e
        rw [ZMod.natCast_mod, Nat.cast_pow]
      rcases root_chain _ s hone with hX | ⟨r, hr, hX⟩
      · have : a ^ d % n = 1 := by
          rw [← natCast_eq_one_iff hn2 hlt, hcast]
          exact hX
        rw [if_pos (Or.inl (hpow.trans this))]
        exact hrest
      · by_cases hr0 : r = 0
        · subst hr0
          have : a ^ d % n = n - 1 := by
            rw [← natCast_eq_neg_one_iff hn2 hlt, hcast]
            simpa using hX
          rw [if_pos (Or.inr (hpow.trans this))]
          exact hrest
        · by_cases h2 : power a d n = 1 ∨ power a d n = n - 1
          · rw [if_pos h2]
            exact hrest
          · rw [if_neg h2]
            have hsq : square_loop n (s - 1) (power a d n) = false := by
              rw [hpow]
              apply square_loop_false hn2 hn64 _ _ hlt
              refine ⟨r, by omega, by omega, ?_⟩
              rw [← Nat.pow_mod, ← natCast_eq_neg_one_iff hn2 (Nat.mod_lt _ (by omega)),
                ZMod.natCast_mod, Nat.cast_pow, Nat.cast_pow]
              exact hX
            rw [hsq]
            exact hrest

/-- Completeness of the test: a prime below `2^64` is accepted. -/
theorem is_prime_mr_of_prime {n : Nat} (hp : Nat.Prime n) (hn64 : n < U64) :
    is_prime_mr n = true := by
  have hn2 : 2 ≤ n := hp.two_le
  unfold is_prime_mr
  rw [if_neg (by omega)]
  by_cases h23 : n = 2 ∨ n = 3
  · rw [if_pos h23]
  · rw [if_neg h23]
    have hodd : ¬ n % 2 = 0 := by
      intro h
      have := (Nat.prime_dvd_prime_iff_eq Nat.prime_two hp).mp (Nat.dvd_of_mod_eq_zero h)
      omega
    rw [if_neg hodd]
    apply witness_loop_of_prime hp hn64
    · have := strip_twos_spec 64 (n - 1) 0
      simpa using this
    · intro a ha
      unfold bases at ha
      simp only [List.mem_cons, List.mem_singleton, List.not_mem_nil, or_false] at ha
      omega


/-! ## The rho walk only ever returns a proper divisor -/

theorem is_prime_mr_two_le {n : Nat} (h : is_prime_mr n = true) : 2 ≤ n := by
  by_contra hlt
  have : is_prime_mr n = false := by
    unfold is_prime_mr
    rw [if_pos (by omega)]
  rw [this] at h
  exact Bool.false_ne_true h

theorem is_prime_mr_even {n : Nat} (h : is_prime_mr n = true) (he : n % 2 = 0) : n = 2 := by
  by_contra hne
  have h2 := is_prime_mr_two_le h
  have : is_prime_mr n = false := by
    unfold is_prime_mr
    rw [if_neg (by omega), if_neg (by omega), if_pos he]
  rw [this] at h
  exact Bool.false_ne_true h

theorem rho_loop_ret (rnd : Nat → Nat) (n : Nat) :
    ∀ (fuel x y c r d r1 : Nat), rho_loop rnd n fuel x y c r = Run.ret (d, r1) →
      d ∣ n ∧ d ≠ 1 ∧ d ≠ n := by
  intro fuel
  induction fuel with
  | zero =>
    intro x y c r d r1 h
    simp [rho_loop] at h
  | succ fuel ih =>
    intro x y c r d r1 h
    unfold rho_loop at h
    split_ifs at h with h1 h2 h3 h4
    · exact ih _ _ _ _ _ _ h
    · exact ih _ _ _ _ _ _ h
    · simp only [Run.ret.injEq, Prod.mk.injEq] at h
      rw [← h.1]
      exact ⟨Nat.gcd_dvd_right _ _, h4, h1⟩

theorem proper_of_dvd {d n : Nat} (hn : 0 < n) (hd : d ∣ n) (h1 : d ≠ 1) (h2 : d ≠ n) :
    1 < d ∧ d < n := by
  have hle := Nat.le_of_dvd hn hd
  have hpos := Nat.pos_of_dvd_of_pos hd hn
  omega

theorem pollard_rho_proper {rnd : Nat → Nat} {fuel n f : Nat} {w w1 : World}
    (hn : 2 ≤ n) (hrej : is_prime_mr n = false)
    (h : pollard_rho rnd fuel n w = Run.ret (f, w1)) : f ∣ n ∧ 1 < f ∧ f < n := by
  unfold pollard_rho at h
  by_cases he : n % 2 = 0
  · rw [if_pos he] at h
    simp only [Run.ret.injEq, Prod.mk.injEq] at h
    rw [← h.1]
    have hne : n ≠ 2 := by
      rintro rfl
      revert hrej
      decide
    exact ⟨Nat.dvd_of_mod_eq_zero he, by omega, by omega⟩
  · rw [if_neg he, hrej] at h
    simp only [Bool.false_eq_true, if_false] at h
    cases hr : rho_loop rnd n fuel 2 2 1 w.rpos with
    | ret p =>
      obtain ⟨d, r⟩ := p
      rw [hr] at h
      simp only [Run.ret.injEq, Prod.mk.injEq] at h
      have := rho_loop_ret rnd n _ _ _ _ _ _ _ hr
      rw [← h.1]
      obtain ⟨a, b⟩ := proper_of_dvd (by omega) this.1 this.2.1 this.2.2
      exact ⟨this.1, a, b⟩
    | fault => rw [hr] at h; exact absurd h (by simp)
    | spin => rw [hr] at h; exact absurd h (by simp)

theorem semiprime_factor {p q f : Nat} (hp : p.Prime) (hq : q.Prime) (hd : f ∣ p * q)
    (h1 : 1 < f) (h2 : f < p * q) : f = p ∨ f = q := by
  obtain ⟨r, hr, hrf⟩ := Nat.exists_prime_and_dvd (show f ≠ 1 by omega)
  obtain ⟨t, rfl⟩ := hrf
  have ht0 : 0 < t := by
    rcases Nat.eq_zero_or_pos t with h | h
    · subst h; simp at h1
    · exact h
  rcases (Nat.Prime.dvd_mul hr).mp (dvd_trans (Dvd.intro _ rfl) hd) with h | h
  · have e : r = p := (Nat.prime_dvd_prime_iff_eq hr hp).mp h
    subst e
    have htq : t ∣ q := Nat.dvd_of_mul_dvd_mul_left hr.pos hd
    rcases (Nat.dvd_prime hq).mp htq with h | h
    · left; rw [h, mul_one]
    · subst h; omega
  · have e : r = q := (Nat.prime_dvd_prime_iff_eq hr hq).mp h
    subst e
    have htp : t ∣ p := by
      rw [mul_comm p r] at hd
      exact Nat.dvd_of_mul_dvd_mul_left hr.pos hd
    rcases (Nat.dvd_prime hp).mp htp with h | h
    · right; rw [h, mul_one]
    · subst h
      rw [mul_comm] at h2
      omega


/-! ## Invariant of the extraction loop -/

theorem refine_factor_ret (rnd : Nat → Nat) (budget : Nat) :
    ∀ (fuel factor : Nat) (w : World) (f : Nat) (w1 : World), 2 ≤ factor →
      refine_factor rnd budget fuel factor w = Run.ret (f, w1) →
      f ∣ factor ∧ 2 ≤ f ∧ is_prime_mr f = true := by
  intro fuel
  induction fuel with
  | zero =>
    intro factor w f w1 h2 h
    unfold refine_factor at h
    by_cases hp : is_prime_mr factor = true
    · rw [if_pos hp] at h
      simp only [Run.ret.injEq, Prod.mk.injEq] at h
      rw [← h.1]
      exact ⟨dvd_refl _, h2, hp⟩
    · rw [if_neg hp] at h
      exact absurd h (by simp)
  | succ fuel ih =>
    intro factor w f w1 h2 h
    unfold refine_factor at h
    by_cases hp : is_prime_mr factor = true
    · rw [if_pos hp] at h
      simp only [Run.ret.injEq, Prod.mk.injEq] at h
      rw [← h.1]
      exact ⟨dvd_refl _, h2, hp⟩
    · rw [if_neg hp] at h
      cases hr : pollard_rho rnd budget factor w with
      | ret p =>
        obtain ⟨g, w2⟩ := p
        rw [hr] at h
        have hg := pollard_rho_proper h2 (by simpa using hp) hr
        have := ih g w2 f w1 (by omega) h
        exact ⟨dvd_trans this.1 hg.1, this.2⟩
      | fault => rw [hr] at h; exact absurd h (by simp)
      | spin => rw [hr] at h; exact absurd h (by simp)

theorem divide_out_ret (factor : Nat) :
    ∀ (fuel n : Nat) (fs : List Nat) (n1 : Nat) (fs1 : List Nat),
      divide_out factor fuel n fs = Run.ret (n1, fs1) →
      ∃ k, fs1 = fs ++ List.replicate k factor ∧ n = n1 * factor ^ k := by
  intro fuel
  induction fuel with
  | zero =>
    intro n fs n1 fs1 h
    unfold divide_out at h
    split_ifs at h
    simp only [Run.ret.injEq, Prod.mk.injEq] at h
    exact ⟨0, by simp [h.2], by simp [h.1]⟩
  | succ fuel ih =>
    intro n fs n1 fs1 h
    unfold divide_out at h
    split_ifs at h with h0 hd
    · obtain ⟨k, hk1, hk2⟩ := ih _ _ _ _ h
      refine ⟨k + 1, ?_, ?_⟩
      · rw [hk1, List.append_assoc, List.replicate_succ, List.singleton_append]
      · have hmul : n / factor * factor = n := Nat.div_mul_cancel (Nat.dvd_of_mod_eq_zero hd)
        rw [← hmul, hk2, pow_succ, mul_assoc]
    · simp only [Run.ret.injEq, Prod.mk.injEq] at h
      exact ⟨0, by simp [h.2], by simp [h.1]⟩

theorem extract_loop_ret (rnd : Nat → Nat) (budget : Nat) :
    ∀ (fuel n : Nat) (fs : List Nat) (w : World) (n1 : Nat) (fs1 : List Nat) (w1 : World),
      1 ≤ n → (∀ x ∈ fs, is_prime_mr x = true) →
      extract_loop rnd budget fuel n fs w = Run.ret (n1, fs1, w1) →
      fs1.prod * n1 = fs.prod * n ∧ (∀ x ∈ fs1, is_prime_mr x = true) ∧ 1 ≤ n1 ∧
        (n1 = 1 ∨ is_prime_mr n1 = true) := by
  intro fuel
  induction fuel with
  | zero =>
    intro n fs w n1 fs1 w1 hn hfs h
    unfold extract_loop at h
    split_ifs at h with hc
    simp only [Run.ret.injEq, Prod.mk.injEq] at h
    obtain ⟨rfl, rfl, rfl⟩ := h
    refine ⟨rfl, hfs, hn, ?_⟩
    by_cases h1 : n = 1
    · exact Or.inl h1
    · right
      by_contra hp
      exact hc ⟨by omega, by simpa using hp⟩
  | succ fuel ih =>
    intro n fs w n1 fs1 w1 hn hfs h
    unfold extract_loop at h
    by_cases hc : n > 1 ∧ is_prime_mr n = false
    · rw [if_pos hc] at h
      cases hr : pollard_rho rnd budget n w with
      | ret p =>
        obtain ⟨f0, w2⟩ := p
        rw [hr] at h
        simp only at h
        have hf0 := pollard_rho_proper (by omega) hc.2 hr
        cases hq : refine_factor rnd budget budget f0 w2 with
        | ret p =>
          obtain ⟨factor, w3⟩ := p
          rw [hq] at h
          simp only at h
          have hfac := refine_factor_ret rnd budget _ _ _ _ _ (by omega) hq
          cases hd : divide_out factor budget n fs with
          | ret p =>
            obtain ⟨n2, fs2⟩ := p
            rw [hd] at h
            simp only at h
            obtain ⟨k, hk1, hk2⟩ := divide_out_ret factor _ _ _ _ _ hd
            have hn2 : 1 ≤ n2 := by
              rcases Nat.eq_zero_or_pos n2 with h0 | h0
              · rw [h0, zero_mul] at hk2; omega
              · exact h0
            have hfs2 : ∀ x ∈ fs2, is_prime_mr x = true := by
              intro x hx
              rw [hk1, List.mem_append] at hx
              rcases hx with hx | hx
              · exact hfs x hx
              · rw [List.eq_of_mem_replicate hx]; exact hfac.2.2
            obtain ⟨a, b, c, d⟩ := ih _ _ _ _ _ _ hn2 hfs2 h
            refine ⟨?_, b, c, d⟩
            rw [a, hk1, List.prod_append, List.prod_replicate, hk2]
            ring
          | fault => rw [hd] at h; exact absurd h (by simp)
          | spin => rw [hd] at h; exact absurd h (by simp)
        | fault => rw [hq] at h; exact absurd h (by simp)
        | spin => rw [hq] at h; exact absurd h (by simp)
      | fault => rw [hr] at h; exact absurd h (by simp)
      | spin => rw [hr] at h; exact absurd h (by simp)
    · rw [if_neg hc] at h
      simp only [Run.ret.injEq, Prod.mk.injEq] at h
      obtain ⟨rfl, rfl, rfl⟩ := h
      refine ⟨rfl, hfs, hn, ?_⟩
      by_cases h1 : n = 1
      · exact Or.inl h1
      · right
        by_contra hp
        exact hc ⟨by omega, by simpa using hp⟩

theorem factor_list_ret {rnd : Nat → Nat} {fuel n : Nat} {w w1 : World} {l : List Nat}
    (hn : 1 ≤ n) (h : factor_list rnd fuel n w = Run.ret (l, w1)) :
    List.Sorted (· ≤ ·) l ∧ l.prod = n ∧ (∀ x ∈ l, is_prime_mr x = true) ∧
      (2 ≤ n → l ≠ []) := by
  unfold factor_list at h
  cases he : extract_loop rnd fuel fuel n [] w with
  | ret p =>
    obtain ⟨n1, fs, w2⟩ := p
    rw [he] at h
    simp only [Run.ret.injEq, Prod.mk.injEq] at h
    obtain ⟨hl, -⟩ := h
    obtain ⟨a, b, c, d⟩ := extract_loop_ret rnd fuel _ _ _ _ _ _ _ hn (by simp) he
    have hperm := List.perm_insertionSort (· ≤ ·) (if n1 > 1 then fs ++ [n1] else fs)
    rw [hl] at hperm
    refine ⟨?_, ?_, ?_, ?_⟩
    · rw [← hl]
      exact List.sorted_insertionSort (· ≤ ·) _
    · rw [hperm.prod_eq]
      by_cases h1 : n1 > 1
      · rw [if_pos h1, List.prod_append]
        simpa using a
      · rw [if_neg h1]
        have : n1 = 1 := by omega
        rw [this] at a
        simpa using a
    · intro x hx
      have hx1 := hperm.mem_iff.mp hx
      by_cases h1 : n1 > 1
      · rw [if_pos h1, List.mem_append] at hx1
        rcases hx1 with hx1 | hx1
        · exact b x hx1
        · rcases d with d | d
          · omega
          · rw [List.mem_singleton] at hx1
            rw [hx1]; exact d
      · rw [if_neg h1] at hx1
        exact b x hx1
    · intro h2 hnil
      have hprod : l.prod = n := by
        rw [hperm.prod_eq]
        by_cases h1 : n1 > 1
        · rw [if_pos h1, List.prod_append]
          simpa using a
        · rw [if_neg h1]
          have : n1 = 1 := by omega
          rw [this] at a
          simpa using a
      rw [hnil] at hprod
      simp at hprod
      omega
  | fault => rw [he] at h; exact absurd h (by simp)
  | spin => rw [he] at h; exact absurd h (by simp)


/-! ## Size of the divisor count -/

theorem group_loop_bounds : ∀ (l : List Nat) (total cur : Nat), 1 ≤ cur →
    cur + l.length < INT_MAX → total * 2 ^ (cur + l.length) < U64 →
    ∃ v, group_loop l total cur = Run.ret v ∧ 2 * total ≤ v ∧
      v ≤ total * 2 ^ (cur + l.length) := by
  have hbase : ∀ (total cur extra : Nat), 1 ≤ cur → total * 2 ^ (cur + extra) < U64 →
      2 * total ≤ (total * (cur + 1)) % U64 ∧
        (total * (cur + 1)) % U64 ≤ total * 2 ^ (cur + extra) := by
    intro total cur extra hc hb
    have h1 : cur + 1 ≤ 2 ^ cur := Nat.lt_two_pow cur
    have h2 : 2 ^ cur ≤ 2 ^ (cur + extra) := Nat.pow_le_pow_right (by norm_num) (by omega)
    have h3 : total * (cur + 1) ≤ total * 2 ^ (cur + extra) :=
      Nat.mul_le_mul_left _ (le_trans h1 h2)
    rw [Nat.mod_eq_of_lt (lt_of_le_of_lt h3 hb)]
    refine ⟨?_, h3⟩
    calc 2 * total = total * 2 := by ring
      _ ≤ total * (cur + 1) := Nat.mul_le_mul_left _ (by omega)
  intro l
  induction l with
  | nil =>
    intro total cur hc hi hb
    have hne : cur ≠ INT_MAX := by
      simp only [List.length_nil] at hi
      omega
    refine ⟨(total * (cur + 1)) % U64, ?_, hbase total cur 0 hc (by simpa using hb)⟩
    simp only [group_loop, if_neg hne]
  | cons a rest ih =>
    intro total cur hc hi hb
    have hne : cur ≠ INT_MAX := by
      simp only [List.length_cons] at hi
      omega
    cases rest with
    | nil =>
      refine ⟨(total * (cur + 1)) % U64, ?_, hbase total cur 1 hc (by simpa using hb)⟩
      simp only [group_loop, if_neg hne]
    | cons b rest =>
      unfold group_loop
      rw [if_neg hne]
      have hlen : cur + (a :: b :: rest).length = (cur + 1) + (b :: rest).length := by
        simp only [List.length_cons]; omega
      by_cases hba : b = a
      · rw [if_pos hba, hlen]
        rw [hlen] at hb hi
        exact ih total (cur + 1) (by omega) hi hb
      · rw [if_neg hba]
        have hq : total * (cur + 1) ≤ total * 2 ^ cur :=
          Nat.mul_le_mul_left _ (Nat.lt_two_pow cur)
        have hpw : total * 2 ^ (cur + (a :: b :: rest).length) =
            total * 2 ^ cur * 2 ^ (1 + (b :: rest).length) := by
          rw [mul_assoc, ← pow_add]
          congr 2
          simp only [List.length_cons]; omega
        have hq2 : total * (cur + 1) * 2 ^ (1 + (b :: rest).length) ≤
            total * 2 ^ (cur + (a :: b :: rest).length) := by
          rw [hpw]
          exact Nat.mul_le_mul_right _ hq
        have hlt : total * (cur + 1) < U64 :=
          lt_of_le_of_lt (le_trans (Nat.le_mul_of_pos_right _ (by positivity)) hq2) hb
        rw [Nat.mod_eq_of_lt hlt]
        have hi1 : 1 + (b :: rest).length < INT_MAX := by
          simp only [List.length_cons] at hi ⊢
          omega
        obtain ⟨v, hv, hv1, hv2⟩ := ih (total * (cur + 1)) 1 (le_refl 1) hi1
          (lt_of_le_of_lt hq2 hb)
        refine ⟨v, hv, ?_, le_trans hv2 hq2⟩
        have h2 : 2 * total ≤ 2 * (total * (cur + 1)) :=
          Nat.mul_le_mul_left _ (Nat.le_mul_of_pos_right _ (by omega))
        exact le_trans h2 hv1

theorem pow_length_le_prod (c : Nat) : ∀ l : List Nat, (∀ x ∈ l, c ≤ x) →
    c ^ l.length ≤ l.prod := by
  intro l
  induction l with
  | nil => intro _; simp
  | cons a rest ih =>
    intro h
    rw [List.length_cons, pow_succ, List.prod_cons, mul_comm]
    exact Nat.mul_le_mul (h a (List.mem_cons_self _ _))
      (ih (fun x hx => h x (List.mem_cons_of_mem _ hx)))

/-- A list of values at least 2 with product below `2^64` has at most 63 entries. -/
theorem length_le_of_prod_lt {l : List Nat} (h2 : ∀ x ∈ l, 2 ≤ x) (hp : l.prod < U64) :
    l.length ≤ 63 := by
  by_contra hgt
  have h64 : 2 ^ 64 ≤ 2 ^ l.length := Nat.pow_le_pow_right (by norm_num) (by omega)
  have := pow_length_le_prod 2 l h2
  unfold U64 at hp
  omega

/-- The grouping loop returns when no count can reach `INT_MAX`. -/
theorem group_loop_returns : ∀ (l : List Nat) (total cur : Nat), cur + l.length < INT_MAX →
    ∃ v, group_loop l total cur = Run.ret v := by
  intro l
  induction l with
  | nil =>
    intro total cur hi
    have hne : cur ≠ INT_MAX := by
      simp only [List.length_nil] at hi
      omega
    unfold group_loop
    rw [if_neg hne]
    exact ⟨_, rfl⟩
  | cons a rest ih =>
    intro total cur hi
    simp only [List.length_cons] at hi
    have hne : cur ≠ INT_MAX := by omega
    cases rest with
    | nil =>
      unfold group_loop
      rw [if_neg hne]
      exact ⟨_, rfl⟩
    | cons b rest =>
      unfold group_loop
      rw [if_neg hne]
      simp only [List.length_cons] at hi
      split_ifs
      · exact ih total (cur + 1) (by simp only [List.length_cons]; omega)
      · exact ih _ 1 (by simp only [List.length_cons]; omega)

/-- `count_divisors` on `n != 1`, once the factor list is known and not empty, is the
grouping loop on that list. -/
theorem count_divisors_of_list {rnd : Nat → Nat} {fuel n : Nat} {w w1 : World} {l : List Nat}
    (hn1 : n ≠ 1) (hf : factor_list rnd fuel n w = Run.ret (l, w1)) (hne : l ≠ []) :
    count_divisors rnd fuel n w =
      match group_loop l 1 1 with
      | Run.ret v => Run.ret (v, w1)
      | Run.fault => Run.fault
      | Run.spin => Run.spin := by
  unfold count_divisors
  rw [if_neg hn1, hf]
  have hemp : l.isEmpty = false := by
    cases l with
    | nil => exact absurd rfl hne
    | cons x t => rfl
  simp only [hemp, Bool.false_eq_true, if_false]

/-- On an odd `m >= 3` below `2^64`, a returned divisor count lies between 2 and `2^41`. -/
theorem count_divisors_odd_bounds {rnd : Nat → Nat} {fuel m d : Nat} {w w1 : World}
    (hodd : m % 2 = 1) (h3 : 3 ≤ m) (hm64 : m < U64)
    (h : count_divisors rnd fuel m w = Run.ret (d, w1)) : 2 ≤ d ∧ d ≤ 2 ^ 41 := by
  cases hf : factor_list rnd fuel m w with
  | ret p =>
    obtain ⟨l, w2⟩ := p
    obtain ⟨-, hprod, hmr, hne⟩ := factor_list_ret (show 1 ≤ m by omega) hf
    rw [count_divisors_of_list (by omega) hf (hne (by omega))] at h
    have hge : ∀ x ∈ l, 3 ≤ x := by
      intro x hx
      have h2 := is_prime_mr_two_le (hmr x hx)
      have hdvd : x ∣ m := hprod ▸ List.dvd_prod hx
      by_contra hlt
      have hx2 : x = 2 := by omega
      rw [hx2] at hdvd
      omega
    have hpow := pow_length_le_prod 3 l hge
    rw [hprod] at hpow
    have hlen : l.length ≤ 40 := by
      by_contra hgt
      have h41 : 3 ^ 41 ≤ 3 ^ l.length := Nat.pow_le_pow_right (by norm_num) (by omega)
      have : (3 : Nat) ^ 41 < U64 := lt_of_le_of_lt (le_trans h41 hpow) hm64
      revert this
      decide
    have hb : 1 * 2 ^ (1 + l.length) ≤ 2 ^ 41 := by
      rw [one_mul]
      exact Nat.pow_le_pow_right (by norm_num) (by omega)
    have hlt : 1 * 2 ^ (1 + l.length) < U64 := lt_of_le_of_lt hb (by decide)
    have hi : 1 + l.length < INT_MAX := by
      unfold INT_MAX
      omega
    obtain ⟨v, hv, hv1, hv2⟩ := group_loop_bounds l 1 1 (le_refl 1) hi hlt
    rw [hv] at h
    simp only [Run.ret.injEq, Prod.mk.injEq] at h
    rw [← h.1]
    exact ⟨by omega, le_trans hv2 hb⟩
  | fault =>
    unfold count_divisors at h
    rw [if_neg (by omega), hf] at h
    exact absurd h (by simp)
  | spin =>
    unfold count_divisors at h
    rw [if_neg (by omega), hf] at h
    exact absurd h (by simp)

theorem count_divisors_one (rnd : Nat → Nat) (fuel : Nat) (w : World) :
    count_divisors rnd fuel 1 w = Run.ret (1, w) := by
  unfold count_divisors
  rw [if_pos rfl]

/-! ## The shift loop -/

theorem shift_loop_ret : ∀ (fuel n k m k1 : Nat), shift_loop fuel n k = Run.ret (m, k1) →
    m % 2 = 1 ∧ k ≤ k1 ∧ n = m * 2 ^ (k1 - k) := by
  intro fuel
  induction fuel with
  | zero =>
    intro n k m k1 h
    unfold shift_loop at h
    rw [Nat.and_one_is_mod] at h
    split_ifs at h with h0
    simp only [Run.ret.injEq, Prod.mk.injEq] at h
    obtain ⟨rfl, rfl⟩ := h
    exact ⟨by omega, le_refl _, by simp⟩
  | succ fuel ih =>
    intro n k m k1 h
    unfold shift_loop at h
    rw [Nat.and_one_is_mod] at h
    split_ifs at h with h0
    · obtain ⟨a, b, c⟩ := ih _ _ _ _ h
      rw [Nat.shiftRight_eq_div_pow, pow_one] at c
      refine ⟨a, by omega, ?_⟩
      have hk : k1 - k = (k1 - (k + 1)) + 1 := by omega
      rw [hk, pow_succ, ← mul_assoc, ← c]
      omega
    · simp only [Run.ret.injEq, Prod.mk.injEq] at h
      obtain ⟨rfl, rfl⟩ := h
      exact ⟨by omega, le_refl _, by simp⟩


/-! ## The divisor count, given that every accepted divisor is prime -/

theorem card_divisors_le_self (n : Nat) : n.divisors.card ≤ n := by
  have hsub : n.divisors ⊆ Finset.Icc 1 n := by
    intro x hx
    rw [Finset.mem_Icc]
    exact ⟨Nat.pos_of_mem_divisors hx, Nat.divisor_le hx⟩
  have := Finset.card_le_card hsub
  simpa using this

theorem card_divisors_pos {n : Nat} (hn : n ≠ 0) : 0 < n.divisors.card :=
  Finset.card_pos.mpr ⟨1, Nat.one_mem_divisors.mpr hn⟩

/-- On an ascending list of primes, and when no product wraps, the grouping loop started
with `cur` copies of the head `a` already counted returns `total` times the number of
divisors of `a^cur` times the rest. -/
theorem group_loop_eq_card : ∀ (rest : List Nat) (a total cur : Nat),
    List.Sorted (· ≤ ·) (a :: rest) → (∀ p ∈ a :: rest, Nat.Prime p) →
    cur + rest.length < INT_MAX →
    total * (a ^ cur * rest.prod).divisors.card < U64 →
    group_loop (a :: rest) total cur =
      Run.ret (total * (a ^ cur * rest.prod).divisors.card) := by
  intro rest
  induction rest with
  | nil =>
    intro a total cur _ hp hi hlt
    have hne : cur ≠ INT_MAX := by
      simp only [List.length_nil] at hi
      omega
    have ha : Nat.Prime a := hp a (List.mem_cons_self _ _)
    have hcard : (a ^ cur * ([] : List Nat).prod).divisors.card = cur + 1 := by
      rw [List.prod_nil, mul_one, Nat.divisors_prime_pow ha, Finset.card_map, Finset.card_range]
    rw [hcard] at hlt ⊢
    simp only [group_loop, if_neg hne]
    rw [Nat.mod_eq_of_lt hlt]
  | cons b rest ih =>
    intro a total cur hs hp hi hlt
    have hne : cur ≠ INT_MAX := by
      simp only [List.length_cons] at hi
      omega
    have hi1 : cur + 1 + rest.length < INT_MAX := by
      simp only [List.length_cons] at hi
      omega
    have hi2 : 1 + rest.length < INT_MAX := by
      simp only [List.length_cons] at hi
      omega
    have ha : Nat.Prime a := hp a (List.mem_cons_self _ _)
    have hs' : List.Sorted (· ≤ ·) (b :: rest) := hs.of_cons
    have hp' : ∀ p ∈ b :: rest, Nat.Prime p := fun p h => hp p (List.mem_cons_of_mem _ h)
    unfold group_loop
    rw [if_neg hne]
    by_cases hba : b = a
    · subst hba
      have he : b ^ cur * (b :: rest).prod = b ^ (cur + 1) * rest.prod := by
        rw [List.prod_cons, pow_succ, mul_assoc]
      rw [if_pos rfl, he]
      rw [he] at hlt
      exact ih b total (cur + 1) hs' hp' hi1 hlt
    · rw [if_neg hba]
      have hcop : Nat.Coprime (a ^ cur) (b :: rest).prod := by
        apply Nat.Coprime.pow_left
        rw [Nat.coprime_list_prod_right_iff]
        intro q hq
        have hq' : Nat.Prime q := hp' q hq
        rw [Nat.coprime_primes ha hq']
        have hb_le : b ≤ q := by
          rcases List.mem_cons.mp hq with h | h
          · rw [h]
          · exact List.rel_of_sorted_cons hs' q h
        have hab : a ≤ b := List.rel_of_sorted_cons hs b (List.mem_cons_self _ _)
        omega
      have hmul : (a ^ cur * (b :: rest).prod).divisors.card =
          (cur + 1) * (b ^ 1 * rest.prod).divisors.card := by
        rw [hcop.card_divisors_mul, Nat.divisors_prime_pow ha, Finset.card_map,
          Finset.card_range, pow_one, List.prod_cons]
      rw [hmul, ← mul_assoc] at hlt
      have hpos : 0 < (b ^ 1 * rest.prod).divisors.card := by
        apply card_divisors_pos
        rw [pow_one, ← List.prod_cons]
        exact (List.prod_pos (fun q hq => (hp' q hq).pos)).ne'
      have hstep : total * (cur + 1) < U64 :=
        lt_of_le_of_lt (Nat.le_mul_of_pos_right _ hpos) hlt
      rw [Nat.mod_eq_of_lt hstep, ih b (total * (cur + 1)) 1 hs' hp' hi2 hlt, hmul, mul_assoc]

/-- If `is_prime_mr` accepts no composite divisor of `n`, every value `count_divisors`
returns for `1 <= n < 2^64` is the number of positive divisors of `n`. -/
theorem count_divisors_eq_card_of_sound {rnd : Nat → Nat} {fuel n d : Nat} {w w1 : World}
    (hn : 1 ≤ n) (hn64 : n < U64)
    (hsound : ∀ x, x ∣ n → is_prime_mr x = true → Nat.Prime x)
    (h : count_divisors rnd fuel n w = Run.ret (d, w1)) : d = n.divisors.card := by
  by_cases h1 : n = 1
  · subst h1
    rw [count_divisors_one] at h
    simp only [Run.ret.injEq, Prod.mk.injEq] at h
    rw [← h.1]
    rfl
  · cases hf : factor_list rnd fuel n w with
    | ret p =>
      obtain ⟨l, w2⟩ := p
      obtain ⟨hsort, hprod, hmr, hne⟩ := factor_list_ret hn hf
      rw [count_divisors_of_list h1 hf (hne (by omega))] at h
      have hlen : l.length ≤ 63 :=
        length_le_of_prod_lt (fun x hx => is_prime_mr_two_le (hmr x hx)) (hprod ▸ hn64)
      cases l with
      | nil => exact absurd rfl (hne (by omega))
      | cons a rest =>
        have hprime : ∀ p ∈ a :: rest, Nat.Prime p := fun p hp =>
          hsound p (hprod ▸ List.dvd_prod hp) (hmr p hp)
        have hval : a ^ 1 * rest.prod = n := by rw [pow_one, ← List.prod_cons, hprod]
        have hlt : 1 * (a ^ 1 * rest.prod).divisors.card < U64 := by
          rw [one_mul, hval]
          exact lt_of_le_of_lt (card_divisors_le_self n) hn64
        have hi : 1 + rest.length < INT_MAX := by
          simp only [List.length_cons] at hlen
          unfold INT_MAX
          omega
        rw [group_loop_eq_card rest a 1 1 hsort hprime hi hlt] at h
        simp only [Run.ret.injEq, Prod.mk.injEq] at h
        rw [← h.1, one_mul, hval]
    | fault =>
      unfold count_divisors at h
      rw [if_neg h1, hf] at h
      exact absurd h (by simp)
    | spin =>
      unfold count_divisors at h
      rw [if_neg h1, hf] at h
      exact absurd h (by simp)

/-- The two composite scenarios of the specification, for every random stream: no random
number is drawn on 12 or on 360. -/
theorem count_divisors_scenarios (rnd : Nat → Nat) (w : World) :
    count_divisors rnd 10 12 w = Run.ret (6, ⟨w.rpos, w.calls ++ [12]⟩) ∧
      count_divisors rnd 10 360 w = Run.ret (24, ⟨w.rpos, w.calls ++ [360] ++ [45]⟩) :=
  ⟨by with_unfolding_all rfl, by with_unfolding_all rfl⟩

/-! ## Strong probable primes, the rho step, and the shift loop -/

/-- Fermat's little theorem and the square roots of 1 modulo a prime: if `n` is prime,
`n - 1 = d 2^s` and `0 < a < n`, then `a^d = 1` or `a^(d 2^r) = n - 1` modulo `n` for some
`r < s`. -/
theorem strong_probable_of_prime {n d s a : Nat} (hp : Nat.Prime n)
    (hds : d * 2 ^ s = n - 1) (ha0 : 0 < a) (han : a < n) :
    a ^ d % n = 1 ∨ ∃ r, r < s ∧ a ^ (d * 2 ^ r) % n = n - 1 := by
  have hn2 : 2 ≤ n := hp.two_le
  haveI : Fact n.Prime := ⟨hp⟩
  have hane : (a : ZMod n) ≠ 0 := by
    intro h0
    rw [ZMod.natCast_zmod_eq_zero_iff_dvd] at h0
    have := Nat.le_of_dvd ha0 h0
    omega
  have hone : ((a : ZMod n) ^ d) ^ (2 ^ s) = 1 := by
    rw [← pow_mul, hds]
    exact ZMod.pow_card_sub_one_eq_one hane
  rcases root_chain _ s hone with hX | ⟨r, hr, hX⟩
  · left
    rw [← natCast_eq_one_iff hn2 (Nat.mod_lt _ (by omega)), ZMod.natCast_mod, Nat.cast_pow]
    exact hX
  · right
    refine ⟨r, hr, ?_⟩
    rw [← natCast_eq_neg_one_iff hn2 (Nat.mod_lt _ (by omega)), ZMod.natCast_mod,
      Nat.cast_pow, pow_mul]
    exact hX

/-- The step of the rho walk is exact whenever the 64-bit sum cannot wrap. -/
theorem rho_f_exact {n c x : Nat} (hn : 1 ≤ n) (hn64 : n < U64) (hx : x < n)
    (hsum : n + c ≤ U64) : rho_f n c x = (x ^ 2 + c) % n := by
  unfold rho_f
  have hx64 : x < U64 := lt_trans hx hn64
  have hlt : mul_mod x x n < n := mul_mod_lt hx64 hx64 hn hn64
  rw [Nat.mod_eq_of_lt (show mul_mod x x n + c < U64 by omega),
    mul_mod_eq hx64 hx64 hn hn64, pow_two, Nat.add_mod, Nat.mod_mod, ← Nat.add_mod]

/-- The shift loop on `m 2^e` with `m` odd: `e` iterations, any budget of at least `e`. -/
theorem shift_loop_pow {m : Nat} (hodd : m % 2 = 1) :
    ∀ (e fuel k0 : Nat), e ≤ fuel → shift_loop fuel (m * 2 ^ e) k0 = Run.ret (m, k0 + e) := by
  intro e
  induction e with
  | zero =>
    intro fuel k0 _
    rw [pow_zero, mul_one, Nat.add_zero]
    cases fuel with
    | zero =>
      unfold shift_loop
      rw [Nat.and_one_is_mod, if_neg (by omega)]
    | succ f =>
      unfold shift_loop
      rw [Nat.and_one_is_mod, if_neg (by omega)]
  | succ e ih =>
    intro fuel k0 hle
    cases fuel with
    | zero => omega
    | succ f =>
      unfold shift_loop
      have hev : (m * 2 ^ (e + 1)) % 2 = 0 := by
        rw [pow_succ, ← mul_assoc]
        exact Nat.mul_mod_left _ _
      have hhalf : (m * 2 ^ (e + 1)) >>> 1 = m * 2 ^ e := by
        rw [Nat.shiftRight_eq_div_pow, pow_one, pow_succ, ← mul_assoc]
        exact Nat.mul_div_cancel _ (by norm_num)
      rw [Nat.and_one_is_mod, if_pos hev, hhalf, ih f (k0 + 1) (by omega)]
      congr 2
      omega

/-- Every `1 <= n` is `m 2^k` with `m` odd; below `2^64`, `k <= 63`. -/
theorem odd_part_exists {n : Nat} (hn : 1 ≤ n) (hn64 : n < U64) :
    ∃ m k, m % 2 = 1 ∧ n = m * 2 ^ k ∧ k ≤ 63 := by
  obtain ⟨k, m, hm, hnm⟩ := Nat.exists_eq_two_pow_mul_odd (show n ≠ 0 by omega)
  refine ⟨m, k, Nat.odd_iff.mp hm, by rw [hnm, mul_comm], ?_⟩
  by_contra hge
  have h1 : 2 ^ 64 ≤ 2 ^ k := Nat.pow_le_pow_right (by norm_num) (by omega)
  have hm1 : 1 ≤ m := by
    rcases Nat.eq_zero_or_pos m with h | h
    · rw [h] at hm; exact absurd hm (by decide)
    · exact h
  have h2 : 2 ^ k ≤ 2 ^ k * m := Nat.le_mul_of_pos_right _ hm1
  unfold U64 at hn64
  omega

/-! ## The grouping loop as a product over the distinct values -/

/-- On an ascending list in which no `int` count overflows, the grouping loop started with
`cur` copies of the head already counted multiplies `total`, modulo `2^64`, by `cur` plus the
further copies of the head plus one, and by the multiplicity plus one of every other
distinct value. -/
theorem group_loop_mod : ∀ (rest : List Nat) (a total cur : Nat),
    List.Sorted (· ≤ ·) (a :: rest) → cur + rest.count a < INT_MAX →
    (∀ x ∈ rest, x ≠ a → rest.count x < INT_MAX) →
    group_loop (a :: rest) total cur =
      Run.ret ((total * ((cur + rest.count a + 1) *
        ∏ x ∈ rest.toFinset.erase a, (rest.count x + 1))) % U64) := by
  intro rest
  induction rest with
  | nil =>
    intro a total cur _ hi _
    have hne : cur ≠ INT_MAX := by
      simp only [List.count_nil] at hi
      omega
    simp [group_loop, hne]
  | cons b rest ih =>
    intro a total cur hs hi hall
    have hne : cur ≠ INT_MAX := by omega
    have hs' : List.Sorted (· ≤ ·) (b :: rest) := hs.of_cons
    have hcongr : ∏ x ∈ rest.toFinset.erase b, ((b :: rest).count x + 1) =
        ∏ x ∈ rest.toFinset.erase b, (rest.count x + 1) := by
      apply Finset.prod_congr rfl
      intro x hx
      rw [List.count_cons_of_ne (Finset.ne_of_mem_erase hx)]
    unfold group_loop
    rw [if_neg hne]
    by_cases hba : b = a
    · subst hba
      rw [List.count_cons_self] at hi
      have hall' : ∀ x ∈ rest, x ≠ b → rest.count x < INT_MAX := by
        intro x hx hxb
        have := hall x (List.mem_cons_of_mem _ hx) hxb
        rwa [List.count_cons_of_ne hxb] at this
      rw [if_pos rfl, ih b total (cur + 1) hs' (by omega) hall', List.count_cons_self,
        List.toFinset_cons, Finset.erase_insert_eq_erase, hcongr]
      congr 4
      omega
    · have hnot : a ∉ b :: rest := by
        intro hmem
        have hab : a ≤ b := List.rel_of_sorted_cons hs b (List.mem_cons_self _ _)
        rcases List.mem_cons.mp hmem with h | h
        · exact hba h.symm
        · have := List.rel_of_sorted_cons hs' a h
          omega
      have hb1 : 1 + rest.count b < INT_MAX := by
        have := hall b (List.mem_cons_self _ _) hba
        rw [List.count_cons_self] at this
        omega
      have hall' : ∀ x ∈ rest, x ≠ b → rest.count x < INT_MAX := by
        intro x hx hxb
        have hxa : x ≠ a := fun h => hnot (h ▸ List.mem_cons_of_mem _ hx)
        have := hall x (List.mem_cons_of_mem _ hx) hxa
        rwa [List.count_cons_of_ne hxb] at this
      rw [if_neg hba, ih b (total * (cur + 1) % U64) 1 hs' hb1 hall']
      have hsplit : ∏ x ∈ (b :: rest).toFinset, ((b :: rest).count x + 1) =
          (rest.count b + 1 + 1) * ∏ x ∈ rest.toFinset.erase b, (rest.count x + 1) := by
        rw [← Finset.mul_prod_erase (b :: rest).toFinset _
          (List.mem_toFinset.mpr (List.mem_cons_self b rest)), List.count_cons_self,
          List.toFinset_cons, Finset.erase_insert_eq_erase, hcongr]
      rw [List.count_eq_zero_of_not_mem hnot,
        Finset.erase_eq_of_not_mem (fun h => hnot (List.mem_toFinset.mp h)), hsplit,
        Nat.mul_mod, Nat.mod_mod, ← Nat.mul_mod]
      congr 2
      ring

/-- The product of multiplicity plus one over the distinct values of a list, modulo `2^64`,
when no multiplicity reaches `INT_MAX`. -/
theorem group_loop_start (l : List Nat) (hne : l ≠ []) (hs : List.Sorted (· ≤ ·) l)
    (hcount : ∀ x ∈ l, l.count x < INT_MAX) :
    group_loop l 1 1 = Run.ret ((∏ x ∈ l.toFinset, (l.count x + 1)) % U64) := by
  cases l with
  | nil => exact absurd rfl hne
  | cons a rest =>
    have h1 : 1 + rest.count a < INT_MAX := by
      have := hcount a (List.mem_cons_self _ _)
      rw [List.count_cons_self] at this
      omega
    have hall : ∀ x ∈ rest, x ≠ a → rest.count x < INT_MAX := by
      intro x hx hxa
      have := hcount x (List.mem_cons_of_mem _ hx)
      rwa [List.count_cons_of_ne hxa] at this
    rw [group_loop_mod rest a 1 1 hs h1 hall, one_mul,
      ← Finset.mul_prod_erase (a :: rest).toFinset _
        (List.mem_toFinset.mpr (List.mem_cons_self a rest)), List.count_cons_self,
      List.toFinset_cons, Finset.erase_insert_eq_erase]
    congr 3
    · omega
    · apply Finset.prod_congr rfl
      intro x hx
      rw [List.count_cons_of_ne (Finset.ne_of_mem_erase hx)]

/-- With entries at least 2 the product of multiplicity plus one is at most the product of
the list. -/
theorem prod_count_le_prod (l : List Nat) (h2 : ∀ x ∈ l, 2 ≤ x) :
    ∏ x ∈ l.toFinset, (l.count x + 1) ≤ l.prod := by
  rw [Finset.prod_list_count l]
  apply Finset.prod_le_prod'
  intro x hx
  have hx2 : 2 ≤ x := h2 x (List.mem_toFinset.mp hx)
  calc l.count x + 1 ≤ 2 ^ l.count x := Nat.lt_two_pow _
    _ ≤ x ^ l.count x := Nat.pow_le_pow_left hx2 _

/-- On a non-empty ascending list whose entries are at least 2 and whose product is below
`2^64`, the grouping loop returns the product of multiplicity plus one. -/
theorem group_loop_of_bounds (l : List Nat) (hne : l ≠ []) (hs : List.Sorted (· ≤ ·) l)
    (h2 : ∀ x ∈ l, 2 ≤ x) (hprod : l.prod < U64) :
    group_loop l 1 1 = Run.ret (∏ x ∈ l.toFinset, (l.count x + 1)) := by
  have hlen := length_le_of_prod_lt h2 hprod
  have hcount : ∀ x ∈ l, l.count x < INT_MAX := by
    intro x _
    have := @List.count_le_length _ _ x l
    unfold INT_MAX
    omega
  rw [group_loop_start l hne hs hcount,
    Nat.mod_eq_of_lt (lt_of_le_of_lt (prod_count_le_prod l h2) hprod)]

/-! ## Termination of the loops of `count_divisors` -/

theorem divide_out_not_dvd (factor : Nat) :
    ∀ (fuel n : Nat) (fs : List Nat) (n1 : Nat) (fs1 : List Nat),
      divide_out factor fuel n fs = Run.ret (n1, fs1) → n1 % factor ≠ 0 := by
  intro fuel
  induction fuel with
  | zero =>
    intro n fs n1 fs1 h
    unfold divide_out at h
    split_ifs at h with h0 hd
    simp only [Run.ret.injEq, Prod.mk.injEq] at h
    rw [← h.1]
    exact hd
  | succ fuel ih =>
    intro n fs n1 fs1 h
    unfold divide_out at h
    split_ifs at h with h0 hd
    · exact ih _ _ _ _ h
    · simp only [Run.ret.injEq, Prod.mk.injEq] at h
      rw [← h.1]
      exact hd

/-- One pass of the division loop by a divisor `factor >= 2` of `n >= 1` at least halves
`n` and leaves it positive. -/
theorem divide_out_decreases {factor fuel n n1 : Nat} {fs fs1 : List Nat}
    (hf : 2 ≤ factor) (hn : 1 ≤ n) (hdvd : factor ∣ n)
    (h : divide_out factor fuel n fs = Run.ret (n1, fs1)) : 1 ≤ n1 ∧ 2 * n1 ≤ n := by
  obtain ⟨k, -, hk⟩ := divide_out_ret factor _ _ _ _ _ h
  have hnd := divide_out_not_dvd factor _ _ _ _ _ h
  have hn1 : 1 ≤ n1 := by
    rcases Nat.eq_zero_or_pos n1 with h0 | h0
    · rw [h0, zero_mul] at hk; omega
    · exact h0
  refine ⟨hn1, ?_⟩
  cases k with
  | zero =>
    rw [pow_zero, mul_one] at hk
    rw [← hk] at hnd
    exact absurd (Nat.mod_eq_zero_of_dvd hdvd) hnd
  | succ k =>
    have h1 : factor ≤ factor ^ (k + 1) := by
      rw [pow_succ]
      exact Nat.le_mul_of_pos_left _ (by positivity)
    calc 2 * n1 = n1 * 2 := by ring
      _ ≤ n1 * factor ^ (k + 1) := Nat.mul_le_mul_left _ (le_trans hf h1)
      _ = n := hk.symm

theorem divide_out_returns {factor : Nat} (hf : 2 ≤ factor) :
    ∀ (fuel n : Nat) (fs : List Nat), 1 ≤ n → n < 2 ^ fuel →
      ∃ r, divide_out factor fuel n fs = Run.ret r := by
  intro fuel
  induction fuel with
  | zero =>
    intro n fs h1 h2
    rw [pow_zero] at h2
    omega
  | succ fuel ih =>
    intro n fs h1 h2
    unfold divide_out
    rw [if_neg (by omega)]
    by_cases hd : n % factor = 0
    · rw [if_pos hd]
      have hle : factor ≤ n := Nat.le_of_dvd (by omega) (Nat.dvd_of_mod_eq_zero hd)
      have hpos : 1 ≤ n / factor := Nat.div_pos hle (by omega)
      have hhalf : n / factor ≤ n / 2 := Nat.div_le_div_left hf (by norm_num)
      rw [pow_succ] at h2
      exact ih _ _ hpos (by omega)
    · rw [if_neg hd]
      exact ⟨_, rfl⟩

theorem refine_factor_returns {rnd : Nat → Nat} {budget N : Nat}
    (hret : ∀ m w, m ∣ N → 2 ≤ m → is_prime_mr m = false →
      ∃ r, pollard_rho rnd budget m w = Run.ret r) :
    ∀ (fuel factor : Nat) (w : World), 2 ≤ factor → factor ∣ N → factor < 2 ^ fuel →
      ∃ r, refine_factor rnd budget fuel factor w = Run.ret r := by
  intro fuel
  induction fuel with
  | zero =>
    intro factor w h2 _ hlt
    rw [pow_zero] at hlt
    omega
  | succ fuel ih =>
    intro factor w h2 hdvd hlt
    unfold refine_factor
    by_cases hp : is_prime_mr factor = true
    · rw [if_pos hp]
      exact ⟨_, rfl⟩
    · rw [if_neg hp]
      have hrej : is_prime_mr factor = false := by simpa using hp
      obtain ⟨⟨f, w1⟩, hr⟩ := hret factor w hdvd h2 hrej
      simp only [hr]
      obtain ⟨hfd, hf1, hflt⟩ := pollard_rho_proper h2 hrej hr
      have hhalf : 2 * f ≤ factor := by
        obtain ⟨t, ht⟩ := hfd
        have ht2 : 2 ≤ t := by
          rcases Nat.lt_or_ge t 2 with h | h
          · interval_cases t
            · omega
            · omega
          · exact h
        calc 2 * f = f * 2 := by ring
          _ ≤ f * t := Nat.mul_le_mul_left _ ht2
          _ = factor := ht.symm
      rw [pow_succ] at hlt
      exact ih f w1 (by omega) (dvd_trans hfd hdvd) (by omega)

theorem extract_loop_returns {rnd : Nat → Nat} {budget N : Nat} (hN : N < 2 ^ budget)
    (hN0 : 1 ≤ N)
    (hret : ∀ m w, m ∣ N → 2 ≤ m → is_prime_mr m = false →
      ∃ r, pollard_rho rnd budget m w = Run.ret r) :
    ∀ (fuel n : Nat) (fs : List Nat) (w : World), 1 ≤ n → n ∣ N → n < 2 ^ (fuel + 1) →
      ∃ r, extract_loop rnd budget fuel n fs w = Run.ret r := by
  intro fuel
  induction fuel with
  | zero =>
    intro n fs w h1 _ hlt
    unfold extract_loop
    rw [if_neg (by omega)]
    exact ⟨_, rfl⟩
  | succ fuel ih =>
    intro n fs w h1 hdvd hlt
    unfold extract_loop
    by_cases hc : n > 1 ∧ is_prime_mr n = false
    · rw [if_pos hc]
      have hnN : n ≤ N := Nat.le_of_dvd hN0 hdvd
      obtain ⟨⟨f0, w1⟩, hr⟩ := hret n w hdvd (by omega) hc.2
      simp only [hr]
      obtain ⟨hf0d, hf01, hf0lt⟩ := pollard_rho_proper (by omega) hc.2 hr
      obtain ⟨⟨factor, w2⟩, hq⟩ := refine_factor_returns hret budget f0 w1 (by omega)
        (dvd_trans hf0d hdvd) (by omega)
      simp only [hq]
      obtain ⟨hfd, hf2, -⟩ := refine_factor_ret rnd budget _ _ _ _ _ (by omega) hq
      obtain ⟨⟨n1, fs1⟩, hd⟩ := divide_out_returns hf2 budget n fs h1 (by omega)
      simp only [hd]
      have hfn : factor ∣ n := dvd_trans hfd hf0d
      obtain ⟨hn1, hhalf⟩ := divide_out_decreases hf2 h1 hfn hd
      obtain ⟨k, -, hk⟩ := divide_out_ret factor _ _ _ _ _ hd
      have hn1d : n1 ∣ N := dvd_trans (Dvd.intro _ hk.symm) hdvd
      rw [pow_succ] at hlt
      exact ih n1 fs1 w2 hn1 hn1d (by omega)
    · rw [if_neg hc]
      exact ⟨_, rfl⟩

/-! ## The odd/even shortcut -/

/-- The divisor count of `2^e m` for odd `m`. -/
theorem card_divisors_two_pow_mul {m : Nat} (hodd : m % 2 = 1) (e : Nat) :
    (2 ^ e * m).divisors.card = (e + 1) * m.divisors.card := by
  have hcop : Nat.Coprime (2 ^ e) m := by
    apply Nat.Coprime.pow_left
    rw [Nat.prime_two.coprime_iff_not_dvd]
    omega
  rw [hcop.card_divisors_mul, Nat.divisors_prime_pow Nat.prime_two, Finset.card_map,
    Finset.card_range]

/-- Line 204 does not wrap: for `n < 2^64` with odd part `m`, a divisor count `d` returned
for `m` and a term index below 12, `omega_arg d k j` is `d (k + j + 2)`. -/
theorem omega_arg_no_wrap {rnd : Nat → Nat} {fuel n m k j d : Nat} {w w1 : World}
    (hn : 1 ≤ n) (hn64 : n < U64) (hj : j < 12)
    (hs : shift_loop 64 n 0 = Run.ret (m, k))
    (hd : count_divisors rnd fuel m w = Run.ret (d, w1)) :
    omega_arg d k j = d * (k + j + 2) := by
  obtain ⟨hodd, -, hnm⟩ := shift_loop_ret _ _ _ _ _ hs
  rw [Nat.sub_zero] at hnm
  have hk : k < 64 := by
    by_contra hge
    have h1 : 2 ^ 64 ≤ 2 ^ k := Nat.pow_le_pow_right (by norm_num) (by omega)
    have h2 : 2 ^ k ≤ m * 2 ^ k := Nat.le_mul_of_pos_left _ (by omega)
    unfold U64 at hn64
    omega
  have hm64 : m < U64 := by
    have : m ≤ m * 2 ^ k := Nat.le_mul_of_pos_right _ (by positivity)
    omega
  have hU : U64 = 18446744073709551616 := rfl
  have hlt : d * (k + j + 2) < U64 := by
    by_cases hm1 : m = 1
    · subst hm1
      rw [count_divisors_one] at hd
      simp only [Run.ret.injEq, Prod.mk.injEq] at hd
      rw [← hd.1, one_mul]
      omega
    · obtain ⟨-, hd41⟩ := count_divisors_odd_bounds hodd (by omega) hm64 hd
      have hup : d * (k + j + 2) ≤ 2 ^ 41 * 76 := Nat.mul_le_mul hd41 (by omega)
      exact lt_of_le_of_lt hup (by decide)
  unfold omega_arg
  rw [Nat.mod_eq_of_lt (show k + j + 2 < U64 by omega), Nat.mod_eq_of_lt hlt]

/-! ## Zero denominators in the series -/

theorem rejected_four_le {a : Nat} (h2 : 2 ≤ a) (hrej : is_prime_mr a = false) : 4 ≤ a := by
  by_contra hlt
  have h23 : a = 2 ∨ a = 3 := by omega
  rcases h23 with h | h
  · rw [h] at hrej; exact absurd hrej (by decide)
  · rw [h] at hrej; exact absurd hrej (by decide)

/-- On `3 <= n < 2^64` the two 64-bit divisors of the restart branch are `n - 2` and `n - 1`,
and the restart values lie in `[2, n)` and `[1, n)`. -/
theorem restart_in_range {n : Nat} (h3 : 3 ≤ n) (hn64 : n < U64) (v v1 : Nat) :
    (n + U64 - 2) % U64 = n - 2 ∧ (n + U64 - 1) % U64 = n - 1 ∧
      (v % ((n + U64 - 2) % U64) + 2) % U64 = v % (n - 2) + 2 ∧
      (v1 % ((n + U64 - 1) % U64) + 1) % U64 = v1 % (n - 1) + 1 ∧
      2 ≤ v % (n - 2) + 2 ∧ v % (n - 2) + 2 < n ∧
      1 ≤ v1 % (n - 1) + 1 ∧ v1 % (n - 1) + 1 < n := by
  have hU : U64 = 18446744073709551616 := rfl
  have e2 : (n + U64 - 2) % U64 = n - 2 := by rw [hU] at hn64 ⊢; omega
  have e1 : (n + U64 - 1) % U64 = n - 1 := by rw [hU] at hn64 ⊢; omega
  have hx : v % (n - 2) < n - 2 := Nat.mod_lt _ (by omega)
  have hc : v1 % (n - 1) < n - 1 := Nat.mod_lt _ (by omega)
  refine ⟨e2, e1, ?_, ?_, by omega, by omega, by omega, by omega⟩
  · rw [e2]
    exact Nat.mod_eq_of_lt (by omega)
  · rw [e1]
    exact Nat.mod_eq_of_lt (by omega)

theorem rho_loop_no_fault (rnd : Nat → Nat) {n : Nat} (h3 : 3 ≤ n) (hn64 : n < U64) :
    ∀ (fuel x y c r : Nat), rho_loop rnd n fuel x y c r ≠ Run.fault := by
  have hU : U64 = 18446744073709551616 := rfl
  intro fuel
  induction fuel with
  | zero =>
    intro x y c r
    simp [rho_loop]
  | succ fuel ih =>
    intro x y c r
    unfold rho_loop
    split_ifs with h1 h2 h3' h4
    · rw [hU] at h2 hn64; omega
    · rw [hU] at h3' hn64; omega
    · exact ih _ _ _ _
    · exact ih _ _ _ _
    · simp

theorem pollard_rho_no_fault (rnd : Nat → Nat) (fuel : Nat) {n : Nat} (w : World)
    (hn1 : n ≠ 1) (hn64 : n < U64) : pollard_rho rnd fuel n w ≠ Run.fault := by
  unfold pollard_rho
  split_ifs with he hp
  · simp
  · simp
  · have := rho_loop_no_fault rnd (show 3 ≤ n by omega) hn64 fuel 2 2 1 w.rpos
    cases hr : rho_loop rnd n fuel 2 2 1 w.rpos with
    | ret p => simp
    | fault => exact absurd hr this
    | spin => simp

theorem pollard_rho_calls {rnd : Nat → Nat} {fuel n f : Nat} {w w1 : World}
    (h : pollard_rho rnd fuel n w = Run.ret (f, w1)) : w1.calls = w.calls ++ [n] := by
  unfold pollard_rho at h
  split_ifs at h with he hp
  · simp only [Run.ret.injEq, Prod.mk.injEq] at h
    rw [← h.2]
  · simp only [Run.ret.injEq, Prod.mk.injEq] at h
    rw [← h.2]
  · cases hr : rho_loop rnd n fuel 2 2 1 w.rpos with
    | ret p =>
      rw [hr] at h
      simp only [Run.ret.injEq, Prod.mk.injEq] at h
      rw [← h.2]
    | fault => rw [hr] at h; exact absurd h (by simp)
    | spin => rw [hr] at h; exact absurd h (by simp)

/-- What is logged by a piece of code: the calls it adds, all on rejected arguments in
`[4, 2^64)`. -/
theorem refine_factor_safe (rnd : Nat → Nat) (budget : Nat) :
    ∀ (fuel factor : Nat) (w : World), 2 ≤ factor → factor < U64 →
      refine_factor rnd budget fuel factor w ≠ Run.fault ∧
      ∀ f w1, refine_factor rnd budget fuel factor w = Run.ret (f, w1) →
        ∃ new, w1.calls = w.calls ++ new ∧
          ∀ a ∈ new, 4 ≤ a ∧ a < U64 ∧ is_prime_mr a = false := by
  intro fuel
  induction fuel with
  | zero =>
    intro factor w h2 h64
    unfold refine_factor
    split_ifs with hp
    · refine ⟨by simp, ?_⟩
      intro f w1 h
      simp only [Run.ret.injEq, Prod.mk.injEq] at h
      exact ⟨[], by rw [← h.2, List.append_nil], by simp⟩
    · exact ⟨by simp, by simp⟩
  | succ fuel ih =>
    intro factor w h2 h64
    unfold refine_factor
    split_ifs with hp
    · refine ⟨by simp, ?_⟩
      intro f w1 h
      simp only [Run.ret.injEq, Prod.mk.injEq] at h
      exact ⟨[], by rw [← h.2, List.append_nil], by simp⟩
    · have hrej : is_prime_mr factor = false := by simpa using hp
      have h4 := rejected_four_le h2 hrej
      cases hr : pollard_rho rnd budget factor w with
      | ret p =>
        obtain ⟨g, w2⟩ := p
        simp only
        obtain ⟨-, hg1, hglt⟩ := pollard_rho_proper h2 hrej hr
        obtain ⟨hnf, hcalls⟩ := ih g w2 (by omega) (by omega)
        refine ⟨hnf, ?_⟩
        intro f w1 h
        obtain ⟨new, hnew, hall⟩ := hcalls f w1 h
        refine ⟨factor :: new, ?_, ?_⟩
        · rw [hnew, pollard_rho_calls hr, List.append_assoc, List.singleton_append]
        · intro a ha
          rcases List.mem_cons.mp ha with h | h
          · rw [h]; exact ⟨h4, h64, hrej⟩
          · exact hall a h
      | fault => exact absurd hr (pollard_rho_no_fault rnd budget w (by omega) h64)
      | spin => exact ⟨by simp, by simp⟩

theorem divide_out_no_fault {factor : Nat} (hf : factor ≠ 0) :
    ∀ (fuel n : Nat) (fs : List Nat), divide_out factor fuel n fs ≠ Run.fault := by
  intro fuel
  induction fuel with
  | zero =>
    intro n fs
    unfold divide_out
    rw [if_neg hf]
    split_ifs <;> simp
  | succ fuel ih =>
    intro n fs
    unfold divide_out
    rw [if_neg hf]
    split_ifs
    · exact ih _ _
    · simp

theorem extract_loop_safe (rnd : Nat → Nat) (budget : Nat) :
    ∀ (fuel n : Nat) (fs : List Nat) (w : World), n < U64 →
      extract_loop rnd budget fuel n fs w ≠ Run.fault ∧
      ∀ n1 fs1 w1, extract_loop rnd budget fuel n fs w = Run.ret (n1, fs1, w1) →
        ∃ new, w1.calls = w.calls ++ new ∧
          ∀ a ∈ new, 4 ≤ a ∧ a < U64 ∧ is_prime_mr a = false := by
  intro fuel
  induction fuel with
  | zero =>
    intro n fs w h64
    unfold extract_loop
    split_ifs with hc
    · exact ⟨by simp, by simp⟩
    · refine ⟨by simp, ?_⟩
      intro n1 fs1 w1 h
      simp only [Run.ret.injEq, Prod.mk.injEq] at h
      exact ⟨[], by rw [← h.2.2, List.append_nil], by simp⟩
  | succ fuel ih =>
    intro n fs w h64
    unfold extract_loop
    split_ifs with hc
    · have h4 := rejected_four_le (show 2 ≤ n by omega) hc.2
      cases hr : pollard_rho rnd budget n w with
      | ret p =>
        obtain ⟨f0, w1⟩ := p
        simp only
        obtain ⟨-, hf01, hf0lt⟩ := pollard_rho_proper (show 2 ≤ n by omega) hc.2 hr
        obtain ⟨hqnf, hqcalls⟩ := refine_factor_safe rnd budget budget f0 w1 (by omega)
          (by omega)
        cases hq : refine_factor rnd budget budget f0 w1 with
        | ret p =>
          obtain ⟨factor, w2⟩ := p
          simp only
          obtain ⟨-, hf2, -⟩ := refine_factor_ret rnd budget _ _ _ _ _ (by omega) hq
          obtain ⟨newq, hnewq, hallq⟩ := hqcalls factor w2 hq
          cases hd : divide_out factor budget n fs with
          | ret p =>
            obtain ⟨n2, fs2⟩ := p
            simp only
            obtain ⟨k, -, hk⟩ := divide_out_ret factor _ _ _ _ _ hd
            have hn2 : n2 ≤ n := by
              rw [hk]
              exact Nat.le_mul_of_pos_right _ (by positivity)
            obtain ⟨hnf, hcalls⟩ := ih n2 fs2 w2 (by omega)
            refine ⟨hnf, ?_⟩
            intro n1 fs1 w3 h
            obtain ⟨new, hnew, hall⟩ := hcalls n1 fs1 w3 h
            refine ⟨n :: (newq ++ new), ?_, ?_⟩
            · rw [hnew, hnewq, pollard_rho_calls hr]
              simp
            · intro a ha
              rcases List.mem_cons.mp ha with h | h
              · rw [h]; exact ⟨h4, h64, hc.2⟩
              · rcases List.mem_append.mp h with h | h
                · exact hallq a h
                · exact hall a h
          | fault => exact absurd hd (divide_out_no_fault (by omega) _ _ _)
          | spin => exact ⟨by simp, by simp⟩
        | fault => exact absurd hq hqnf
        | spin => exact ⟨by simp, by simp⟩
      | fault => exact absurd hr (pollard_rho_no_fault rnd budget w (by omega) h64)
      | spin => exact ⟨by simp, by simp⟩
    · refine ⟨by simp, ?_⟩
      intro n1 fs1 w1 h
      simp only [Run.ret.injEq, Prod.mk.injEq] at h
      exact ⟨[], by rw [← h.2.2, List.append_nil], by simp⟩

/-! ## `power` with modulus 1 -/

/-- With modulus 1 and an exponent `1 <= exp < 2^64`, `power` returns 0. -/
theorem power_mod_one_of_pos (base exp : Nat) (h1 : 1 ≤ exp) (h64 : exp < U64) :
    power base exp 1 = 0 := by
  have hstep : ∀ (fuel res b e : Nat), 1 ≤ e → e < 2 ^ fuel →
      power_loop fuel res b e 1 = 0 := by
    intro fuel
    induction fuel with
    | zero => intro res b e h1 h2; rw [pow_zero] at h2; omega
    | succ fuel ih =>
      intro res b e h1 h2
      unfold power_loop
      rw [if_pos (by omega)]
      have hmm : ∀ u v, mul_mod u v 1 = 0 := by
        intro u v
        unfold mul_mod
        rw [Nat.mod_one]
        rfl
      by_cases he : e / 2 = 0
      · have hodd : e % 2 = 1 := by omega
        rw [if_pos hodd, he, hmm]
        cases fuel with
        | zero => rfl
        | succ f => unfold power_loop; rw [if_neg (by omega)]
      · rw [pow_succ] at h2
        exact ih _ _ _ (by omega) (by omega)
  unfold power
  apply hstep
  · exact h1
  · unfold U64 at h64; omega

/-- If `is_prime_mr` accepts no composite divisor of `n`, two returning runs of
`count_divisors(n)` agree, whatever the random streams, budgets and states. -/
theorem count_divisors_deterministic_of_sound {rnd rnd1 : Nat → Nat} {fuel fuel1 n d d1 : Nat}
    {w w1 v v1 : World} (hn : 1 ≤ n) (hn64 : n < U64)
    (hsound : ∀ x, x ∣ n → is_prime_mr x = true → Nat.Prime x)
    (h : count_divisors rnd fuel n w = Run.ret (d, w1))
    (h1 : count_divisors rnd1 fuel1 n v = Run.ret (d1, v1)) : d = d1 := by
  rw [count_divisors_eq_card_of_sound hn hn64 hsound h,
    count_divisors_eq_card_of_sound hn hn64 hsound h1]

/-! ## The cache slot of `calculate_T` and the divisions it performs -/

theorem shift_loop_returns {n : Nat} (hn : 1 ≤ n) (hn64 : n < U64) :
    ∃ m k, shift_loop 64 n 0 = Run.ret (m, k) := by
  obtain ⟨m, k, hodd, hnm, hk⟩ := odd_part_exists hn hn64
  refine ⟨m, 0 + k, ?_⟩
  rw [hnm]
  exact shift_loop_pow hodd k 64 0 (by omega)

theorem odd_part_bounds {n m k : Nat} (hn64 : n < U64)
    (hs : shift_loop 64 n 0 = Run.ret (m, k)) :
    m % 2 = 1 ∧ 1 ≤ m ∧ m < U64 ∧ n = m * 2 ^ k := by
  obtain ⟨hodd, -, hnm⟩ := shift_loop_ret _ _ _ _ _ hs
  rw [Nat.sub_zero] at hnm
  have hle : m ≤ m * 2 ^ k := Nat.le_mul_of_pos_right _ (by positivity)
  exact ⟨hodd, by omega, by omega, hnm⟩

/-- With the slot keyed by `n` the loop never calls `count_divisors`: it returns the series
summed from the cached count, leaves the slot and the world as they were, and the divisions
it logs are those of consecutive terms from `j` on, each on `cached_dm * (k + i + 2)`. -/
theorem calculate_T_loop_hit {F : Type} (ops : FloatOps F) (rnd : Nat → Nat)
    (fuel n m k : Nat) (hs : shift_loop 64 n 0 = Run.ret (m, k)) :
    ∀ (left j : Nat) (total prod : F) (st : TState), n = st.cached_n →
      ∃ lg, calculate_T_loop ops rnd fuel n left j total prod st =
          Run.ret (series_loop ops st.cached_dm k left j total prod,
            ⟨st.cached_n, st.cached_dm, st.world, st.divs ++ lg⟩) ∧
        (∀ p ∈ lg, j ≤ p.1 ∧ p.1 < j + left ∧ p.2 = omega_arg st.cached_dm k p.1) ∧
        (0 < left → ∃ rest, lg = (j, omega_arg st.cached_dm k j) :: rest) ∧
        (0 < left → ops.lt (next_prod ops prod st.cached_dm k j) ops.tol = true →
          lg = [(j, omega_arg st.cached_dm k j)]) := by
  intro left
  induction left with
  | zero =>
    intro j total prod st _
    refine ⟨[], ?_, ?_, ?_, ?_⟩
    · simp only [calculate_T_loop, series_loop, List.append_nil]
    · intro p hp
      exact absurd hp (List.not_mem_nil _)
    · intro h
      omega
    · intro h
      omega
  | succ left ih =>
    intro j total prod st hhit
    by_cases hlt : ops.lt (next_prod ops prod st.cached_dm k j) ops.tol = true
    · refine ⟨[(j, omega_arg st.cached_dm k j)], ?_, ?_, ?_, ?_⟩
      · unfold calculate_T_loop series_loop
        simp only [hs, lookup_dm, if_pos hhit, if_pos hlt, log_div]
      · intro p hp
        rw [List.mem_singleton] at hp
        subst hp
        exact ⟨le_refl _, by omega, rfl⟩
      · intro _
        exact ⟨[], rfl⟩
      · intro _ _
        rfl
    · obtain ⟨lg, heq, hmem, -, -⟩ := ih (j + 1)
        (ops.add total (next_prod ops prod st.cached_dm k j))
        (next_prod ops prod st.cached_dm k j)
        (log_div st j (omega_arg st.cached_dm k j)) hhit
      refine ⟨(j, omega_arg st.cached_dm k j) :: lg, ?_, ?_, ?_, ?_⟩
      · unfold calculate_T_loop series_loop
        simp only [hs, lookup_dm, if_pos hhit, if_neg hlt]
        rw [heq]
        simp only [log_div, List.append_assoc, List.singleton_append]
      · intro p hp
        rcases List.mem_cons.mp hp with h | h
        · subst h
          exact ⟨le_refl _, by omega, rfl⟩
        · obtain ⟨a, b, c⟩ := hmem p h
          exact ⟨by omega, by omega, c⟩
      · intro _
        exact ⟨lg, rfl⟩
      · intro _ h
        exact absurd h hlt

/-- With the slot holding another value, the first iteration calls `count_divisors` on the
odd part of `n` at the current world and fills the slot with `(n, d)`; the remaining
iterations hit. A fault or an endless loop of that call is one of `calculate_T`. -/
theorem calculate_T_miss {F : Type} (ops : FloatOps F) (rnd : Nat → Nat)
    (fuel n m k : Nat) (st : TState) (hmiss : n ≠ st.cached_n)
    (hs : shift_loop 64 n 0 = Run.ret (m, k)) :
    (∀ d w1, count_divisors rnd fuel m st.world = Run.ret (d, w1) →
      ∃ lg, calculate_T ops rnd fuel n st =
          Run.ret (series_loop ops d k 12 0 ops.one ops.one, ⟨n, d, w1, st.divs ++ lg⟩) ∧
        (∀ p ∈ lg, p.1 < 12 ∧ p.2 = omega_arg d k p.1) ∧
        (∃ rest, lg = (0, omega_arg d k 0) :: rest) ∧
        (ops.lt (next_prod ops ops.one d k 0) ops.tol = true → lg = [(0, omega_arg d k 0)])) ∧
      (count_divisors rnd fuel m st.world = Run.fault →
        calculate_T ops rnd fuel n st = Run.fault) ∧
      (count_divisors rnd fuel m st.world = Run.spin →
        calculate_T ops rnd fuel n st = Run.spin) := by
  refine ⟨?_, ?_, ?_⟩
  · intro d w1 hc
    by_cases hlt : ops.lt (next_prod ops ops.one d k 0) ops.tol = true
    · refine ⟨[(0, omega_arg d k 0)], ?_, ?_, ⟨[], rfl⟩, fun _ => rfl⟩
      · unfold calculate_T calculate_T_loop series_loop
        simp only [hs, lookup_dm, if_neg hmiss, hc, if_pos hlt, log_div]
      · intro p hp
        rw [List.mem_singleton] at hp
        subst hp
        exact ⟨by omega, rfl⟩
    · obtain ⟨lg, heq, hmem, -, -⟩ := calculate_T_loop_hit ops rnd fuel n m k hs 11 (0 + 1)
        (ops.add ops.one (next_prod ops ops.one d k 0)) (next_prod ops ops.one d k 0)
        (log_div ⟨n, d, w1, st.divs⟩ 0 (omega_arg d k 0)) rfl
      refine ⟨(0, omega_arg d k 0) :: lg, ?_, ?_, ⟨lg, rfl⟩, fun h => absurd h hlt⟩
      · unfold calculate_T calculate_T_loop series_loop
        simp only [hs, lookup_dm, if_neg hmiss, hc, if_neg hlt]
        rw [heq]
        simp only [log_div, List.append_assoc, List.singleton_append]
      · intro p hp
        rcases List.mem_cons.mp hp with h | h
        · subst h
          exact ⟨by omega, rfl⟩
        · obtain ⟨-, b, c⟩ := hmem p h
          exact ⟨by omega, c⟩
  · intro hc
    unfold calculate_T calculate_T_loop
    simp only [hs, lookup_dm, if_neg hmiss, hc]
  · intro hc
    unfold calculate_T calculate_T_loop
    simp only [hs, lookup_dm, if_neg hmiss, hc]

/-- A call on `n >= 1` that returns, from a state that satisfies the cache invariant, has
summed the series from a count `d` that `count_divisors` returned for the odd part of this
`n` (at the current world on a miss); it leaves the slot holding `(n, d)` and has logged the
divisions of consecutive terms from 0 on, each on `d * (k + j + 2)`. -/
theorem calculate_T_ret {F : Type} (ops : FloatOps F) (rnd : Nat → Nat)
    (fuel n m k : Nat) (st st1 : TState) (v : F) (hn : 1 ≤ n)
    (hs : shift_loop 64 n 0 = Run.ret (m, k)) (hinv : CacheInv rnd fuel st)
    (h : calculate_T ops rnd fuel n st = Run.ret (v, st1)) :
    ∃ d wa wb lg, count_divisors rnd fuel m wa = Run.ret (d, wb) ∧
      v = series_loop ops d k 12 0 ops.one ops.one ∧
      st1.cached_n = n ∧ st1.cached_dm = d ∧ st1.divs = st.divs ++ lg ∧
      (n = st.cached_n → st1.world = st.world) ∧
      (n ≠ st.cached_n → wa = st.world ∧ st1.world = wb) ∧
      (∀ p ∈ lg, p.1 < 12 ∧ p.2 = omega_arg d k p.1) ∧
      (∃ rest, lg = (0, omega_arg d k 0) :: rest) ∧
      (ops.lt (next_prod ops ops.one d k 0) ops.tol = true → lg = [(0, omega_arg d k 0)]) := by
  by_cases hhit : n = st.cached_n
  · rcases hinv with h0 | ⟨m1, k1, wa, wb, hs1, hc⟩
    · omega
    · rw [← hhit, hs] at hs1
      simp only [Run.ret.injEq, Prod.mk.injEq] at hs1
      obtain ⟨rfl, rfl⟩ := hs1
      obtain ⟨lg, heq, hmem, hhead, hone⟩ := calculate_T_loop_hit ops rnd fuel n m k hs 12 0
        ops.one ops.one st hhit
      unfold calculate_T at h
      rw [heq] at h
      simp only [Run.ret.injEq, Prod.mk.injEq] at h
      obtain ⟨hv, hst⟩ := h
      subst hst
      refine ⟨st.cached_dm, wa, wb, lg, hc, hv.symm, hhit.symm, rfl, rfl, fun _ => rfl,
        fun hne => absurd hhit hne, ?_, hhead (by omega), hone (by omega)⟩
      intro p hp
      obtain ⟨-, b, c⟩ := hmem p hp
      exact ⟨by omega, c⟩
  · obtain ⟨hret, hfault, hspin⟩ := calculate_T_miss ops rnd fuel n m k st hhit hs
    cases hc : count_divisors rnd fuel m st.world with
    | ret q =>
      obtain ⟨d, w1⟩ := q
      obtain ⟨lg, heq, hmem, hhead, hone⟩ := hret d w1 hc
      rw [heq] at h
      simp only [Run.ret.injEq, Prod.mk.injEq] at h
      obtain ⟨hv, hst⟩ := h
      subst hst
      exact ⟨d, st.world, w1, lg, hc, hv.symm, rfl, rfl, rfl, fun he => absurd he hhit,
        fun _ => ⟨rfl, rfl⟩, hmem, hhead, hone⟩
    | fault =>
      rw [hfault hc] at h
      exact absurd h (by simp)
    | spin =>
      rw [hspin hc] at h
      exact absurd h (by simp)

/-- One call of `calculate_T` on `n >= 1` that returns keeps the cache invariant and leaves
the slot keyed by `n`. -/
theorem calculate_T_step {F : Type} (ops : FloatOps F) (rnd : Nat → Nat)
    (fuel n : Nat) (st st1 : TState) (v : F) (hn : 1 ≤ n) (hinv : CacheInv rnd fuel st)
    (h : calculate_T ops rnd fuel n st = Run.ret (v, st1)) :
    CacheInv rnd fuel st1 ∧ st1.cached_n = n := by
  cases hs : shift_loop 64 n 0 with
  | ret p =>
    obtain ⟨m, k⟩ := p
    obtain ⟨d, wa, wb, lg, hc, -, hkey, hdm, -⟩ :=
      calculate_T_ret ops rnd fuel n m k st st1 v hn hs hinv h
    refine ⟨Or.inr ⟨m, k, wa, wb, ?_, ?_⟩, hkey⟩
    · rw [hkey]
      exact hs
    · rw [hdm]
      exact hc
  | fault =>
    unfold calculate_T calculate_T_loop at h
    simp only [hs] at h
    exact absurd h (by simp)
  | spin =>
    unfold calculate_T calculate_T_loop at h
    simp only [hs] at h
    exact absurd h (by simp)

/-- Along a sequence of calls on inputs `n_i >= 1` that return, every state reached satisfies
the cache invariant and is keyed by the input of the call that left it. -/
theorem run_calls_inv {F : Type} (ops : FloatOps F) (rnd : Nat → Nat) (fuel : Nat) :
    ∀ (ns : List Nat) (st : TState) (out : List (F × TState)),
      (∀ n ∈ ns, 1 ≤ n) → CacheInv rnd fuel st →
      run_calls ops rnd fuel ns st = Run.ret out →
      List.Forall₂ (fun n (r : F × TState) =>
        CacheInv rnd fuel r.2 ∧ r.2.cached_n = n) ns out := by
  intro ns
  induction ns with
  | nil =>
    intro st out _ _ h
    simp only [run_calls, Run.ret.injEq] at h
    subst h
    exact List.Forall₂.nil
  | cons n ns ih =>
    intro st out hns hinv h
    unfold run_calls at h
    cases hc : calculate_T ops rnd fuel n st with
    | ret p =>
      obtain ⟨v, st1⟩ := p
      rw [hc] at h
      simp only at h
      have hstep := calculate_T_step ops rnd fuel n st st1 v
        (hns n (List.mem_cons_self _ _)) hinv hc
      cases hr : run_calls ops rnd fuel ns st1 with
      | ret rest =>
        rw [hr] at h
        simp only [Run.ret.injEq] at h
        subst h
        exact List.Forall₂.cons hstep
          (ih st1 rest (fun x hx => hns x (List.mem_cons_of_mem _ hx)) hstep.1 hr)
      | fault => rw [hr] at h; exact absurd h (by simp)
      | spin => rw [hr] at h; exact absurd h (by simp)
    | fault => rw [hc] at h; exact absurd h (by simp)
    | spin => rw [hc] at h; exact absurd h (by simp)

/-! ## A run of `pollard_rho` through the restart branch -/

theorem walk_to_append {n c : Nat} : ∀ (j k : Nat) {x y a b : Nat} {p : Nat × Nat},
    walk_to n c j x y = some (a, b) → walk_to n c k a b = some p →
    walk_to n c (j + k) x y = some p := by
  intro j
  induction j with
  | zero =>
    intro k x y a b p h1 h2
    simp only [walk_to, Option.some.injEq, Prod.mk.injEq] at h1
    obtain ⟨rfl, rfl⟩ := h1
    rw [Nat.zero_add]
    exact h2
  | succ j ih =>
    intro k x y a b p h1 h2
    unfold walk_to at h1
    split_ifs at h1 with hg
    rw [Nat.add_right_comm]
    unfold walk_to
    rw [if_pos hg]
    exact ih k h1 h2

/-- While the iterations find `d == 1` the loop of `pollard_rho` goes on: `k` such
iterations use `k` units of the budget and leave `c` and the draw count as they were. -/
theorem rho_loop_walk (rnd : Nat → Nat) {n c : Nat} (hn : n ≠ 1) :
    ∀ (k x y a b : Nat), walk_to n c k x y = some (a, b) →
      ∀ F r, rho_loop rnd n (F + k) x y c r = rho_loop rnd n F a b c r := by
  intro k
  induction k with
  | zero =>
    intro x y a b h F r
    simp only [walk_to, Option.some.injEq, Prod.mk.injEq] at h
    obtain ⟨rfl, rfl⟩ := h
    rfl
  | succ k ih =>
    intro x y a b h F r
    unfold walk_to at h
    split_ifs at h with hg
    rw [← Nat.add_assoc]
    conv_lhs => unfold rho_loop
    rw [if_neg (by rw [hg]; exact fun h1 => hn h1.symm), if_pos hg]
    exact ih _ _ a b h F r

/-- An iteration that finds `d == n` restarts the walk from the next two values of `rand()`. -/
theorem rho_loop_restart_step (rnd : Nat → Nat) {n c x y x1 c1 : Nat}
    (hg : Nat.gcd (abs_diff (rho_f n c x) (rho_f n c (rho_f n c y))) n = n) (F r : Nat)
    (h2 : (n + U64 - 2) % U64 ≠ 0) (h1 : (n + U64 - 1) % U64 ≠ 0)
    (hx : (rnd r % ((n + U64 - 2) % U64) + 2) % U64 = x1)
    (hc : (rnd (r + 1) % ((n + U64 - 1) % U64) + 1) % U64 = c1) :
    rho_loop rnd n (F + 1) x y c r = rho_loop rnd n F x1 x1 c1 (r + 2) := by
  conv_lhs => unfold rho_loop
  rw [if_pos hg, if_neg h2, if_neg h1, hx, hc]

/-- On an odd `n` that `is_prime_mr` rejects, `pollard_rho` runs its loop from `x = y = 2`
with `c = 1`: if some iterations lead the loop to `x`, `y`, `c`, the call goes on from
there. -/
theorem pollard_rho_of_loop_eq (rnd : Nat → Nat) {fuel fuel1 n x y c r : Nat}
    (calls : List Nat) (hodd : n % 2 = 1) (hrej : is_prime_mr n = false)
    (h : rho_loop rnd n fuel 2 2 1 0 = rho_loop rnd n fuel1 x y c r) :
    pollard_rho rnd fuel n ⟨0, calls⟩ =
      match rho_loop rnd n fuel1 x y c r with
      | Run.ret (d, r1) => Run.ret (d, ⟨r1, calls ++ [n]⟩)
      | Run.fault => Run.fault
      | Run.spin => Run.spin := by
  unfold pollard_rho
  rw [if_neg (by omega), hrej, if_neg Bool.false_ne_true]
  show (match rho_loop rnd n fuel 2 2 1 0 with
    | Run.ret (d, r1) => Run.ret (d, (⟨r1, calls ++ [n]⟩ : World))
    | Run.fault => Run.fault
    | Run.spin => Run.spin) = _
  rw [h]

set_option maxRecDepth 1000000 in
/-- The walk of `pollard_rho(18446744073513073217)` with `c = 1` from `x = y = 2`: its first
10000 iterations all find `d == 1`. -/
theorem walk_before_restart_10000 :
    walk_to 18446744073513073217 1 10000 2 2 =
      some (3204764139667391885, 15415696857134828670) := by
  have s1 : walk_to 18446744073513073217 1 1000 2 2 =
      some (15364603740553384157, 596105297614679754) :=
    by decide!
  have s2 : walk_to 18446744073513073217 1 2000 2 2 =
      some (596105297614679754, 18220354407812407870) :=
    walk_to_append 1000 1000 s1 (by decide!)
  have s3 : walk_to 18446744073513073217 1 3000 2 2 =
      some (2517882132439953569, 7296802972995760876) :=
    walk_to_append 2000 1000 s2 (by decide!)
  have s4 : walk_to 18446744073513073217 1 4000 2 2 =
      some (18220354407812407870, 14551626949596446565) :=
    walk_to_append 3000 1000 s3 (by decide!)
  have s5 : walk_to 18446744073513073217 1 5000 2 2 =
      some (18362180617819145317, 3204764139667391885) :=
    walk_to_append 4000 1000 s4 (by decide!)
  have s6 : walk_to 18446744073513073217 1 6000 2 2 =
      some (7296802972995760876, 15933555570285827811) :=
    walk_to_append 5000 1000 s5 (by decide!)
  have s7 : walk_to 18446744073513073217 1 7000 2 2 =
      some (16059801309809224615, 8025125037666532904) :=
    walk_to_append 6000 1000 s6 (by decide!)
  have s8 : walk_to 18446744073513073217 1 8000 2 2 =
      some (14551626949596446565, 1502456226249800527) :=
    walk_to_append 7000 1000 s7 (by decide!)
  have s9 : walk_to 18446744073513073217 1 9000 2 2 =
      some (2863159368211874108, 16155294610947844555) :=
    walk_to_append 8000 1000 s8 (by decide!)
  exact walk_to_append 9000 1000 s9 (by decide!)

set_option maxRecDepth 1000000 in
/-- The walk of `pollard_rho(18446744073513073217)` with `c = 1` from `x = y = 2`: its first
20000 iterations all find `d == 1`. -/
theorem walk_before_restart_20000 :
    walk_to 18446744073513073217 1 20000 2 2 =
      some (15415696857134828670, 15219766333388267273) := by
  have s1 : walk_to 18446744073513073217 1 11000 2 2 =
      some (188883283823491193, 9074469454373353552) :=
    walk_to_append 10000 1000 walk_before_restart_10000 (by decide!)
  have s2 : walk_to 18446744073513073217 1 12000 2 2 =
      some (15933555570285827811, 1863261343612746712) :=
    walk_to_append 11000 1000 s1 (by decide!)
  have s3 : walk_to 18446744073513073217 1 13000 2 2 =
      some (15960497538734741414, 10868722252169794362) :=
    walk_to_append 12000 1000 s2 (by decide!)
  have s4 : walk_to 18446744073513073217 1 14000 2 2 =
      some (8025125037666532904, 16364802155784131374) :=
    walk_to_append 13000 1000 s3 (by decide!)
  have s5 : walk_to 18446744073513073217 1 15000 2 2 =
      some (4217156201150975803, 10876015760282237722) :=
    walk_to_append 14000 1000 s4 (by decide!)
  have s6 : walk_to 18446744073513073217 1 16000 2 2 =
      some (1502456226249800527, 10660982845707646998) :=
    walk_to_append 15000 1000 s5 (by decide!)
  have s7 : walk_to 18446744073513073217 1 17000 2 2 =
      some (8857229230326239629, 17223375168683100118) :=
    walk_to_append 16000 1000 s6 (by decide!)
  have s8 : walk_to 18446744073513073217 1 18000 2 2 =
      some (16155294610947844555, 12366385309950572846) :=
    walk_to_append 17000 1000 s7 (by decide!)
  have s9 : walk_to 18446744073513073217 1 19000 2 2 =
      some (6289555866340632771, 8911756583963583374) :=
    walk_to_append 18000 1000 s8 (by decide!)
  exact walk_to_append 19000 1000 s9 (by decide!)

set_option maxRecDepth 1000000 in
/-- The walk of `pollard_rho(18446744073513073217)` with `c = 1` from `x = y = 2`: its first
21414 iterations all find `d == 1`. -/
theorem walk_before_restart :
    walk_to 18446744073513073217 1 21414 2 2 =
      some (11247288359148624340, 14177316103378280851) := by
  have s1 : walk_to 18446744073513073217 1 21000 2 2 =
      some (397655222168611866, 2331070428815330896) :=
    walk_to_append 20000 1000 walk_before_restart_20000 (by decide!)
  exact walk_to_append 21000 414 s1 (by decide!)

/-! ## Properties of the specification, C4 to C20 -/

/-- C4: for 64-bit `a` and `b` and a modulus `m` with `1 <= m < 2^64`, the 128-bit product
inside `mul_mod` does not wrap, and `mul_mod a b m` is exactly `(a * b) mod m`, a value
below `m`. -/
theorem mul_mod_exact (a b m : Nat) (ha : a < U64) (hb : b < U64) (hm : 1 ≤ m)
    (hm64 : m < U64) :
    (a * b) % U128 = a * b ∧ mul_mod a b m = (a * b) % m ∧ mul_mod a b m < m :=
  ⟨Nat.mod_eq_of_lt (mul_lt_U128 ha hb), mul_mod_eq ha hb hm hm64, mul_mod_lt ha hb hm hm64⟩

/-- C4 at the scenario of the specification: `mul_mod(2^63 - 1, 3, 2^63 + 6)` is
`2^63 - 15 = 9223372036854775793`. -/
theorem mul_mod_exact_witness :
    (2 ^ 63 - 1 < U64 ∧ 3 < U64 ∧ 1 ≤ 2 ^ 63 + 6 ∧ 2 ^ 63 + 6 < U64) ∧
      mul_mod (2 ^ 63 - 1) 3 (2 ^ 63 + 6) = 9223372036854775793 ∧
      mul_mod (2 ^ 63 - 1) 3 (2 ^ 63 + 6) < 2 ^ 63 + 6 :=
  ⟨by decide,
    (mul_mod_exact (2 ^ 63 - 1) 3 (2 ^ 63 + 6) (by decide) (by decide) (by decide)
      (by decide)).2.1.trans (by decide),
    (mul_mod_exact (2 ^ 63 - 1) 3 (2 ^ 63 + 6) (by decide) (by decide) (by decide)
      (by decide)).2.2⟩

/-- C5: for a 64-bit exponent and a modulus `2 <= mod < 2^64`, `power base exp mod` is
exactly `base^exp mod mod` (so 1 for `exp = 0`), a value below `mod`, and the loop has ended
by its own test within 64 iterations: a larger step budget gives the same result. -/
theorem power_correct (base exp mod : Nat) (he : exp < U64) (hm : 2 ≤ mod) (hm64 : mod < U64) :
    power base exp mod = base ^ exp % mod ∧ power base exp mod < mod ∧
      ∀ extra, power_loop (64 + extra) 1 (base % mod) exp mod = power base exp mod := by
  have heq := @power_eq base exp mod he hm hm64
  refine ⟨heq, ?_, ?_⟩
  · rw [heq]
    exact Nat.mod_lt _ (by omega)
  · intro extra
    have h64 : exp < 2 ^ 64 := by unfold U64 at he; omega
    have hlt : exp < 2 ^ (64 + extra) :=
      lt_of_lt_of_le h64 (Nat.pow_le_pow_right (by norm_num) (by omega))
    rw [heq, power_loop_eq (by omega) hm64 (64 + extra) 1 (base % mod) exp hlt (by omega)
      (Nat.mod_lt _ (by omega)), one_mul, ← Nat.pow_mod]

/-- C5 at `2^10 mod 1000 = 24`. -/
theorem power_correct_witness :
    (10 < U64 ∧ 2 ≤ 1000 ∧ 1000 < U64) ∧
      power 2 10 1000 = 24 ∧ power 2 10 1000 < 1000 ∧
      power_loop (64 + 3) 1 (2 % 1000) 10 1000 = power 2 10 1000 :=
  ⟨by decide,
    (power_correct 2 10 1000 (by decide) (by decide) (by decide)).1.trans (by decide),
    (power_correct 2 10 1000 (by decide) (by decide) (by decide)).2.1,
    (power_correct 2 10 1000 (by decide) (by decide) (by decide)).2.2 3⟩

/-- C6: whatever `rand()` returns and whatever the step budget, (1) on an odd `n >= 3` that
`is_prime_mr` rejects, a returned value `f` divides `n` with `1 < f < n`, and so is `p` or
`q` when `n = p * q` for primes `p`, `q`; (2) on an even `n` the call returns 2; (3) on an
`n` that `is_prime_mr` accepts the call returns `n`. -/
theorem pollard_rho_contract (rnd : Nat → Nat) (fuel : Nat) (w : World) :
    (∀ n f w1, n % 2 = 1 → 3 ≤ n → is_prime_mr n = false →
        pollard_rho rnd fuel n w = Run.ret (f, w1) →
        f ∣ n ∧ 1 < f ∧ f < n ∧
          ∀ p q, Nat.Prime p → Nat.Prime q → n = p * q → f = p ∨ f = q) ∧
    (∀ n, n % 2 = 0 → pollard_rho rnd fuel n w = Run.ret (2, ⟨w.rpos, w.calls ++ [n]⟩)) ∧
    (∀ n, is_prime_mr n = true →
        pollard_rho rnd fuel n w = Run.ret (n, ⟨w.rpos, w.calls ++ [n]⟩)) := by
  refine ⟨?_, ?_, ?_⟩
  · intro n f w1 _ h3 hrej h
    obtain ⟨a, b, c⟩ := pollard_rho_proper (by omega) hrej h
    refine ⟨a, b, c, ?_⟩
    intro p q hp hq hn
    subst hn
    exact semiprime_factor hp hq a b c
  · intro n he
    unfold pollard_rho
    rw [if_pos he]
  · intro n hacc
    unfold pollard_rho
    by_cases he : n % 2 = 0
    · rw [if_pos he, is_prime_mr_even hacc he]
    · rw [if_neg he, if_pos hacc]

/-- C6 at `n = 15 = 3 * 5`: the walk returns 3 without drawing a random number. -/
theorem pollard_rho_contract_witness :
    (15 % 2 = 1 ∧ 3 ≤ 15 ∧ is_prime_mr 15 = false ∧
      pollard_rho (fun _ => 0) 10 15 ⟨0, []⟩ = Run.ret (3, ⟨0, [15]⟩)) ∧
    (3 ∣ 15 ∧ 1 < 3 ∧ 3 < 15 ∧
      ∀ p q, Nat.Prime p → Nat.Prime q → 15 = p * q → 3 = p ∨ 3 = q) :=
  ⟨by decide,
    (pollard_rho_contract (fun _ => 0) 10 ⟨0, []⟩).1 15 3 ⟨0, [15]⟩ (by decide) (by decide)
      (by decide) (by decide)⟩

/-- C7: for `n >= 2`, whatever `rand()` returns, if the extraction loop of `count_divisors`
finishes then the sorted factor list is ascending, the product of its entries is `n`, and
every entry is accepted by `is_prime_mr`; it is the list whose groups `count_divisors`
counts, and for `n < 2^64` that count is returned. -/
theorem factor_list_invariant (rnd : Nat → Nat) (fuel n : Nat) (w w1 : World) (l : List Nat)
    (hn : 2 ≤ n) (h : factor_list rnd fuel n w = Run.ret (l, w1)) :
    List.Sorted (· ≤ ·) l ∧ l.prod = n ∧ (∀ x ∈ l, is_prime_mr x = true) ∧
      (count_divisors rnd fuel n w =
        match group_loop l 1 1 with
        | Run.ret v => Run.ret (v, w1)
        | Run.fault => Run.fault
        | Run.spin => Run.spin) ∧
      (n < U64 → ∃ v, group_loop l 1 1 = Run.ret v ∧
        count_divisors rnd fuel n w = Run.ret (v, w1)) := by
  obtain ⟨a, b, c, d⟩ := factor_list_ret (by omega) h
  have heq := count_divisors_of_list (show n ≠ 1 by omega) h (d hn)
  refine ⟨a, b, c, heq, ?_⟩
  intro hn64
  have hlen : l.length ≤ 63 :=
    length_le_of_prod_lt (fun x hx => is_prime_mr_two_le (c x hx)) (b ▸ hn64)
  obtain ⟨v, hv⟩ := group_loop_returns l 1 1 (by unfold INT_MAX; omega)
  exact ⟨v, hv, by rw [heq, hv]⟩

/-- C7 at `n = 360`: the list is `[2, 2, 2, 3, 3, 5]` and the count is 24. -/
theorem factor_list_invariant_witness :
    (2 ≤ 360 ∧
      factor_list (fun _ => 0) 10 360 ⟨0, []⟩ = Run.ret ([2, 2, 2, 3, 3, 5], ⟨0, [360, 45]⟩)) ∧
    (List.Sorted (· ≤ ·) [2, 2, 2, 3, 3, 5] ∧ [2, 2, 2, 3, 3, 5].prod = 360 ∧
      (∀ x ∈ [2, 2, 2, 3, 3, 5], is_prime_mr x = true)) ∧
    group_loop [2, 2, 2, 3, 3, 5] 1 1 = Run.ret 24 ∧
    count_divisors (fun _ => 0) 10 360 ⟨0, []⟩ = Run.ret (24, ⟨0, [360, 45]⟩) :=
  ⟨by decide,
    ⟨(factor_list_invariant (fun _ => 0) 10 360 ⟨0, []⟩ ⟨0, [360, 45]⟩ [2, 2, 2, 3, 3, 5]
      (by decide) (by decide)).1,
     (factor_list_invariant (fun _ => 0) 10 360 ⟨0, []⟩ ⟨0, [360, 45]⟩ [2, 2, 2, 3, 3, 5]
      (by decide) (by decide)).2.1,
     (factor_list_invariant (fun _ => 0) 10 360 ⟨0, []⟩ ⟨0, [360, 45]⟩ [2, 2, 2, 3, 3, 5]
      (by decide) (by decide)).2.2.1⟩,
    by decide, by decide⟩

/-- C8: `count_divisors(1) = 1` and `count_divisors(p) = 2` for every prime `p < 2^64`, for
every random stream and every step budget (zero included); the world is returned unchanged:
no random number is drawn, `pollard_rho` is not called, and no fault is raised. -/
theorem count_divisors_one_and_prime (rnd : Nat → Nat) (fuel : Nat) (w : World) :
    count_divisors rnd fuel 1 w = Run.ret (1, w) ∧
      ∀ p, Nat.Prime p → p < U64 → count_divisors rnd fuel p w = Run.ret (2, w) := by
  refine ⟨count_divisors_one rnd fuel w, ?_⟩
  intro p hp hp64
  have hacc := is_prime_mr_of_prime hp hp64
  have h2 := hp.two_le
  have hloop : extract_loop rnd fuel fuel p [] w = Run.ret (p, [], w) := by
    cases fuel with
    | zero =>
      unfold extract_loop
      rw [if_neg (by simp [hacc])]
    | succ k =>
      unfold extract_loop
      rw [if_neg (by simp [hacc])]
  have hlist : factor_list rnd fuel p w = Run.ret ([p], w) := by
    unfold factor_list
    rw [hloop]
    simp only [if_pos (show p > 1 by omega), List.nil_append, List.insertionSort,
      List.orderedInsert]
  have hgroup : group_loop [p] 1 1 = Run.ret 2 := by
    unfold group_loop
    rw [if_neg (by decide)]
    rfl
  rw [count_divisors_of_list (by omega) hlist (by simp), hgroup]

/-- C8 at the prime 17, with a step budget of zero. -/
theorem count_divisors_one_and_prime_witness :
    (Nat.Prime 17 ∧ 17 < U64) ∧ count_divisors (fun _ => 0) 0 17 ⟨0, []⟩ = Run.ret (2, ⟨0, []⟩) :=
  ⟨⟨by norm_num, by decide⟩,
    (count_divisors_one_and_prime (fun _ => 0) 0 ⟨0, []⟩).2 17 (by norm_num) (by decide)⟩


/-- C9: the empty slot `(0, 0)` satisfies the cache invariant, and a call that returns keeps
it and leaves the slot keyed by its own `n`, so that it holds in every state reached by a
sequence of calls on inputs `n_i >= 1`. From a state that satisfies it, a call
`calculate_T(n)` with `1 <= n < 2^64`, odd part `m` and `n = 2^k m`:
(1) when the slot holds another input, behaves as the cache-free evaluation of `n` at the
same world, with the same value and world on return, the same fault and the same endless
loop, and the count it stores is the one `count_divisors` returns for the odd part of this
`n` in this call, never the previous input's;
(2) when the slot is keyed by `n`, returns, without calling `count_divisors`, the series
summed from the cached count, which `count_divisors` has returned for the odd part of this
`n`: the value of the cache-free evaluation of `n` at the world of that run;
(3) in both cases, if `is_prime_mr` accepts no composite divisor of `m`, returns the series
summed from `d(m)`, which is the value of every cache-free evaluation of `n` that returns,
at any world, random stream and budget. -/
theorem calculate_T_cache_transparent {F : Type} (ops : FloatOps F) (rnd : Nat → Nat)
    (fuel n : Nat) (st : TState) (hn : 1 ≤ n) (hn64 : n < U64)
    (hinv : CacheInv rnd fuel st) :
    ∃ m k, shift_loop 64 n 0 = Run.ret (m, k) ∧
      (n ≠ st.cached_n →
        (∀ v w1, calculate_T_nocache ops rnd fuel n st.world = Run.ret (v, w1) →
          ∃ d lg, count_divisors rnd fuel m st.world = Run.ret (d, w1) ∧
            calculate_T ops rnd fuel n st = Run.ret (v, ⟨n, d, w1, st.divs ++ lg⟩)) ∧
        (calculate_T_nocache ops rnd fuel n st.world = Run.fault →
          calculate_T ops rnd fuel n st = Run.fault) ∧
        (calculate_T_nocache ops rnd fuel n st.world = Run.spin →
          calculate_T ops rnd fuel n st = Run.spin)) ∧
      (n = st.cached_n →
        ∃ lg wa wb, calculate_T ops rnd fuel n st =
            Run.ret (series_loop ops st.cached_dm k 12 0 ops.one ops.one,
              ⟨st.cached_n, st.cached_dm, st.world, st.divs ++ lg⟩) ∧
          count_divisors rnd fuel m wa = Run.ret (st.cached_dm, wb) ∧
          calculate_T_nocache ops rnd fuel n wa =
            Run.ret (series_loop ops st.cached_dm k 12 0 ops.one ops.one, wb)) ∧
      (∀ v st1, calculate_T ops rnd fuel n st = Run.ret (v, st1) →
        CacheInv rnd fuel st1 ∧ st1.cached_n = n ∧
          ((∀ x, x ∣ m → is_prime_mr x = true → Nat.Prime x) →
            v = series_loop ops m.divisors.card k 12 0 ops.one ops.one ∧
            ∀ (rnd1 : Nat → Nat) (fuel1 : Nat) (w : World) (v1 : F) (w1 : World),
              calculate_T_nocache ops rnd1 fuel1 n w = Run.ret (v1, w1) → v1 = v)) ∧
      (∀ w, CacheInv rnd fuel ⟨0, 0, w, []⟩) ∧
      (∀ (ns : List Nat) (w : World) (out : List (F × TState)), (∀ x ∈ ns, 1 ≤ x) →
        run_calls ops rnd fuel ns ⟨0, 0, w, []⟩ = Run.ret out →
        List.Forall₂ (fun x (r : F × TState) =>
          CacheInv rnd fuel r.2 ∧ r.2.cached_n = x) ns out) := by
  obtain ⟨m, k, hs⟩ := shift_loop_returns hn hn64
  obtain ⟨-, hm1, hm64, -⟩ := odd_part_bounds hn64 hs
  have hnc : ∀ (rnd1 : Nat → Nat) (fuel1 : Nat) (w : World),
      calculate_T_nocache ops rnd1 fuel1 n w =
        match count_divisors rnd1 fuel1 m w with
        | Run.ret (d_m, w1) => Run.ret (series_loop ops d_m k 12 0 ops.one ops.one, w1)
        | Run.fault => Run.fault
        | Run.spin => Run.spin := by
    intro rnd1 fuel1 w
    unfold calculate_T_nocache
    simp only [hs]
  refine ⟨m, k, hs, ?_, ?_, ?_, fun w => Or.inl rfl, ?_⟩
  · intro hmiss
    obtain ⟨hret, hfault, hspin⟩ := calculate_T_miss ops rnd fuel n m k st hmiss hs
    refine ⟨?_, ?_, ?_⟩
    · intro v w1 hv
      rw [hnc] at hv
      cases hc : count_divisors rnd fuel m st.world with
      | ret q =>
        obtain ⟨d, w2⟩ := q
        rw [hc] at hv
        simp only [Run.ret.injEq, Prod.mk.injEq] at hv
        obtain ⟨rfl, rfl⟩ := hv
        obtain ⟨lg, heq, -⟩ := hret d w2 hc
        exact ⟨d, lg, rfl, heq⟩
      | fault =>
        rw [hc] at hv
        exact absurd hv (by simp)
      | spin =>
        rw [hc] at hv
        exact absurd hv (by simp)
    · intro hv
      rw [hnc] at hv
      cases hc : count_divisors rnd fuel m st.world with
      | ret q =>
        rw [hc] at hv
        exact absurd hv (by simp)
      | fault => exact hfault hc
      | spin =>
        rw [hc] at hv
        exact absurd hv (by simp)
    · intro hv
      rw [hnc] at hv
      cases hc : count_divisors rnd fuel m st.world with
      | ret q =>
        rw [hc] at hv
        exact absurd hv (by simp)
      | fault =>
        rw [hc] at hv
        exact absurd hv (by simp)
      | spin => exact hspin hc
  · intro hhit
    rcases hinv with h0 | ⟨m1, k1, wa, wb, hs1, hc⟩
    · omega
    · rw [← hhit, hs] at hs1
      simp only [Run.ret.injEq, Prod.mk.injEq] at hs1
      obtain ⟨rfl, rfl⟩ := hs1
      obtain ⟨lg, heq, -⟩ := calculate_T_loop_hit ops rnd fuel n m k hs 12 0 ops.one ops.one
        st hhit
      refine ⟨lg, wa, wb, heq, hc, ?_⟩
      rw [hnc, hc]
  · intro v st1 h
    obtain ⟨hinv1, hkey⟩ := calculate_T_step ops rnd fuel n st st1 v hn hinv h
    refine ⟨hinv1, hkey, ?_⟩
    intro hsound
    obtain ⟨d, wa, wb, lg, hc, hv, -⟩ :=
      calculate_T_ret ops rnd fuel n m k st st1 v hn hs hinv h
    rw [count_divisors_eq_card_of_sound hm1 hm64 hsound hc] at hv
    refine ⟨hv, ?_⟩
    intro rnd1 fuel1 w v1 w1 h1
    rw [hnc] at h1
    cases hc1 : count_divisors rnd1 fuel1 m w with
    | ret q =>
      obtain ⟨d1, w2⟩ := q
      rw [hc1] at h1
      simp only [Run.ret.injEq, Prod.mk.injEq] at h1
      rw [hv, ← h1.1, count_divisors_eq_card_of_sound hm1 hm64 hsound hc1]
    | fault =>
      rw [hc1] at h1
      exact absurd h1 (by simp)
    | spin =>
      rw [hc1] at h1
      exact absurd h1 (by simp)
  · intro ns w out hns hrun
    exact run_calls_inv ops rnd fuel ns ⟨0, 0, w, []⟩ out hns (Or.inl rfl) hrun

/-- C9 at `n = 12` (odd part 3, `k = 2`, `d(3) = 2`) in exact arithmetic: from the empty
slot the call fills the slot with `(12, 2)`; from the slot `(12, 2)` the call returns the
series summed from the cached 2 and leaves the slot and the world as they were. -/
theorem calculate_T_cache_transparent_witness :
    (1 ≤ 12 ∧ 12 < U64 ∧ CacheInv (fun _ => 0) 10 ⟨12, 2, ⟨0, []⟩, []⟩) ∧
    calculate_T exact_ops (fun _ => 0) 10 12 ⟨0, 0, ⟨0, []⟩, []⟩ =
      Run.ret (362872 / 294525, ⟨12, 2, ⟨0, []⟩,
        [(0, 8), (1, 10), (2, 12), (3, 14), (4, 16), (5, 18), (6, 20)]⟩) ∧
    ∃ lg, calculate_T exact_ops (fun _ => 0) 10 12 ⟨12, 2, ⟨0, []⟩, []⟩ =
      Run.ret (series_loop exact_ops 2 2 12 0 exact_ops.one exact_ops.one,
        ⟨12, 2, ⟨0, []⟩, [] ++ lg⟩) := by
  have hinv : CacheInv (fun _ => 0) 10 ⟨12, 2, ⟨0, []⟩, []⟩ :=
    Or.inr ⟨3, 2, ⟨0, []⟩, ⟨0, []⟩, by decide, by decide⟩
  obtain ⟨m, k, hs, -, hhit, -⟩ := calculate_T_cache_transparent exact_ops (fun _ => 0) 10 12
    ⟨12, 2, ⟨0, []⟩, []⟩ (by decide) (by decide) hinv
  have he : shift_loop 64 12 0 = Run.ret (3, 2) := by decide
  rw [he] at hs
  simp only [Run.ret.injEq, Prod.mk.injEq] at hs
  obtain ⟨rfl, rfl⟩ := hs
  obtain ⟨lg, wa, wb, heq, -⟩ := hhit rfl
  exact ⟨⟨by decide, by decide, hinv⟩, by decide!, lg, heq⟩

/-- C10 fails as stated: for `n = 2` (odd part 1, `k = 1`, `d(1) = 1`) the denominator of
term `j = 0` is `1 * (1 + 0 + 2) - 3 = 0`, so `|1 + omega_0| >= 1` is false; the first term
that `calculate_T(2)` evaluates divides by zero. -/
theorem calculate_T_zero_denominator :
    shift_loop 64 2 0 = Run.ret (1, 1) ∧
      count_divisors (fun _ => 0) 0 1 ⟨0, []⟩ = Run.ret (1, ⟨0, []⟩) ∧
      (omega_arg 1 1 0 : ℤ) - 4 + 1 = 0 ∧
      ¬ (1 ≤ |(omega_arg 1 1 0 : ℤ) - 4 + 1|) ∧
      exact_ops.add exact_ops.one
        (exact_ops.sub (exact_ops.ofU64 (omega_arg 1 1 0)) exact_ops.four) = 0 := by
  have h3 : omega_arg 1 1 0 = 3 := by decide
  refine ⟨by decide, by decide, ?_, ?_, ?_⟩
  · rw [h3]; norm_num
  · rw [h3]; norm_num
  · rw [h3]; norm_num [exact_ops]

/-- C10 amended: for `1 <= n < 2^64` with odd part `m` and `n = 2^k m`, a divisor count `d`
returned for `m`, and a term index `j < 12`, except at `(n, j) = (2, 0)` and
`(n, j) = (1, 1)`: line 204 computes `d (k + j + 2)` without wrap, the integer denominator
`1 + omega_j = d (k + j + 2) - 3` has absolute value at least 1, and in exact arithmetic the
new product is at most the previous one in absolute value. -/
theorem calculate_T_denominator_bound (rnd : Nat → Nat) (fuel n m k j d : Nat) (w w1 : World)
    (hn : 1 ≤ n) (hn64 : n < U64) (hj : j < 12)
    (hs : shift_loop 64 n 0 = Run.ret (m, k))
    (hd : count_divisors rnd fuel m w = Run.ret (d, w1))
    (h20 : ¬ (n = 2 ∧ j = 0)) (h11 : ¬ (n = 1 ∧ j = 1)) :
    omega_arg d k j = d * (k + j + 2) ∧
      1 ≤ |(omega_arg d k j : ℤ) - 4 + 1| ∧
      ∀ prod : ℚ, |next_prod exact_ops prod d k j| ≤ |prod| := by
  obtain ⟨hodd, -, hnm⟩ := shift_loop_ret _ _ _ _ _ hs
  rw [Nat.sub_zero] at hnm
  have hk : k < 64 := by
    by_contra hge
    have h1 : 2 ^ 64 ≤ 2 ^ k := Nat.pow_le_pow_right (by norm_num) (by omega)
    have h2 : 2 ^ k ≤ m * 2 ^ k := Nat.le_mul_of_pos_left _ (by omega)
    unfold U64 at hn64
    omega
  have hm64 : m < U64 := by
    have : m ≤ m * 2 ^ k := Nat.le_mul_of_pos_right _ (by positivity)
    omega
  have hU : U64 = 18446744073709551616 := rfl
  -- the facts about `d` that matter: no wrap, and the size of the denominator
  have key : d * (k + j + 2) < U64 ∧ (d * (k + j + 2) ≤ 2 ∨ 4 ≤ d * (k + j + 2)) := by
    by_cases hm1 : m = 1
    · subst hm1
      rw [count_divisors_one] at hd
      simp only [Run.ret.injEq, Prod.mk.injEq] at hd
      rw [← hd.1, one_mul]
      refine ⟨by omega, ?_⟩
      rw [one_mul] at hnm
      have hk0 : k ≠ 0 ∨ j ≠ 1 := by
        by_contra hcon
        push_neg at hcon
        apply h11
        rw [hnm, hcon.1]
        exact ⟨rfl, hcon.2⟩
      have hk1 : k ≠ 1 ∨ j ≠ 0 := by
        by_contra hcon
        push_neg at hcon
        apply h20
        rw [hnm, hcon.1]
        exact ⟨rfl, hcon.2⟩
      omega
    · obtain ⟨hd2, hd41⟩ := count_divisors_odd_bounds hodd (by omega) hm64 hd
      have hup : d * (k + j + 2) ≤ 2 ^ 41 * 76 := Nat.mul_le_mul hd41 (by omega)
      have hlo : 2 * 2 ≤ d * (k + j + 2) := Nat.mul_le_mul hd2 (by omega)
      exact ⟨lt_of_le_of_lt hup (by decide), Or.inr hlo⟩
  obtain ⟨hlt, hsize⟩ := key
  have harg : omega_arg d k j = d * (k + j + 2) := by
    unfold omega_arg
    rw [Nat.mod_eq_of_lt (show k + j + 2 < U64 by omega), Nat.mod_eq_of_lt hlt]
  have habs : 1 ≤ |(omega_arg d k j : ℤ) - 4 + 1| := by
    rw [harg]
    rcases hsize with h | h
    · rw [abs_of_nonpos (by omega)]
      omega
    · rw [abs_of_nonneg (by omega)]
      omega
  refine ⟨harg, habs, ?_⟩
  intro prod
  have hden : exact_ops.add exact_ops.one
      (exact_ops.sub (exact_ops.ofU64 (omega_arg d k j)) exact_ops.four) =
      (((omega_arg d k j : ℤ) - 4 + 1 : ℤ) : ℚ) := by
    simp only [exact_ops]
    push_cast
    ring
  have habsq : (1 : ℚ) ≤ |(((omega_arg d k j : ℤ) - 4 + 1 : ℤ) : ℚ)| := by
    rw [← Int.cast_abs]
    exact_mod_cast habs
  unfold next_prod
  rw [hden]
  simp only [exact_ops]
  rw [abs_mul, one_div, abs_inv]
  calc |prod| * |(((omega_arg d k j : ℤ) - 4 + 1 : ℤ) : ℚ)|⁻¹ ≤ |prod| * 1 :=
        mul_le_mul_of_nonneg_left (inv_le_one_of_one_le₀ habsq) (abs_nonneg _)
    _ = |prod| := mul_one _

/-- C10 amended, at `n = 12`, `j = 3`: odd part 3, `k = 2`, `d = 2`, denominator 11. -/
theorem calculate_T_denominator_bound_witness :
    (1 ≤ 12 ∧ 12 < U64 ∧ 3 < 12 ∧ shift_loop 64 12 0 = Run.ret (3, 2) ∧
      count_divisors (fun _ => 0) 10 3 ⟨0, []⟩ = Run.ret (2, ⟨0, []⟩) ∧
      ¬ (12 = 2 ∧ 3 = 0) ∧ ¬ (12 = 1 ∧ 3 = 1)) ∧
    (omega_arg 2 2 3 = 2 * (2 + 3 + 2) ∧ 1 ≤ |(omega_arg 2 2 3 : ℤ) - 4 + 1| ∧
      ∀ prod : ℚ, |next_prod exact_ops prod 2 2 3| ≤ |prod|) :=
  ⟨by decide,
    calculate_T_denominator_bound (fun _ => 0) 10 12 3 2 3 2 ⟨0, []⟩ ⟨0, []⟩ (by decide)
      (by decide) (by decide) (by decide) (by decide) (by decide) (by decide)⟩

/-- C11: for a prime `n < 2^64`, with `(d, s)` the result of the halving loop on `n - 1`:
`d` is odd, `n - 1 = d 2^s`, every base `a` of the fixed set with `a < n` satisfies
`a^d = 1` or `a^(d 2^r) = n - 1` modulo `n` for some `r < s`, and `is_prime_mr n` is true. -/
theorem is_prime_mr_accepts_primes (n : Nat) (hp : Nat.Prime n) (hn64 : n < U64) :
    (strip_twos 64 (n - 1) 0).1 % 2 = 1 ∧
      n - 1 = (strip_twos 64 (n - 1) 0).1 * 2 ^ (strip_twos 64 (n - 1) 0).2 ∧
      (∀ a ∈ bases, a < n →
        a ^ (strip_twos 64 (n - 1) 0).1 % n = 1 ∨
          ∃ r, r < (strip_twos 64 (n - 1) 0).2 ∧
            a ^ ((strip_twos 64 (n - 1) 0).1 * 2 ^ r) % n = n - 1) ∧
      is_prime_mr n = true := by
  have hn2 := hp.two_le
  have hds : (strip_twos 64 (n - 1) 0).1 * 2 ^ (strip_twos 64 (n - 1) 0).2 = n - 1 := by
    simpa using strip_twos_spec 64 (n - 1) 0
  refine ⟨?_, hds.symm, ?_, is_prime_mr_of_prime hp hn64⟩
  · apply strip_twos_odd 64 (n - 1) 0 (by omega)
    unfold U64 at hn64
    omega
  · intro a ha han
    have ha0 : 0 < a := by
      unfold bases at ha
      simp only [List.mem_cons, List.mem_singleton, List.not_mem_nil, or_false] at ha
      omega
    exact strong_probable_of_prime hp hds ha0 han

/-- C11 at the prime 13: `12 = 3 * 2^2`. -/
theorem is_prime_mr_accepts_primes_witness :
    (Nat.Prime 13 ∧ 13 < U64) ∧ strip_twos 64 (13 - 1) 0 = (3, 2) ∧
      (strip_twos 64 (13 - 1) 0).1 % 2 = 1 ∧ is_prime_mr 13 = true :=
  ⟨⟨by norm_num, by decide⟩, by decide,
    (is_prime_mr_accepts_primes 13 (by norm_num) (by decide)).1,
    (is_prime_mr_accepts_primes 13 (by norm_num) (by decide)).2.2.2⟩

/-- C12 fails inside `pollard_rho(n)` for `n = 18446744073513073217 = 4275775081 *
4314245657`, an odd number that `is_prime_mr` rejects, when `rand()` returns 91503 and then
2147313311. The walk with `c = 1` from `x = y = 2` finds `d == 1` for 21414 iterations and
`d == n` at the next, so lines 101-105 set `x = y = 91505` and `c = 2147313312 < n`. The
iteration after that computes `x = f(91505) = 10520478337` and, for `y`, `f(10520478337)`:
there `mul_mod` returns 18446744071720919484, the 64-bit sum with `c` passes `2^64` and
wraps to 158681180, which `f` returns, while `(x^2 + c) mod n = 355159579`. The call goes on
from `x = 10520478337`, `y = 158681180`. -/
theorem rho_f_wraps :
    18446744073513073217 = 4275775081 * 4314245657 ∧
      18446744073513073217 % 2 = 1 ∧ 18446744073513073217 < U64 ∧
      is_prime_mr 18446744073513073217 = false ∧
      (∀ F, rho_loop rand_seq 18446744073513073217 (F + 21415) 2 2 1 0 =
        rho_loop rand_seq 18446744073513073217 F 91505 91505 2147313312 2) ∧
      (∀ F, rho_loop rand_seq 18446744073513073217 (F + 1) 91505 91505 2147313312 2 =
        rho_loop rand_seq 18446744073513073217 F 10520478337 158681180 2147313312 2) ∧
      (∀ F calls, pollard_rho rand_seq (F + 21416) 18446744073513073217 ⟨0, calls⟩ =
        match rho_loop rand_seq 18446744073513073217 F 10520478337 158681180 2147313312 2
        with
        | Run.ret (d, r) => Run.ret (d, ⟨r, calls ++ [18446744073513073217]⟩)
        | Run.fault => Run.fault
        | Run.spin => Run.spin) ∧
      rho_f 18446744073513073217 2147313312 91505 = 10520478337 ∧
      10520478337 < 18446744073513073217 ∧ 1 ≤ 2147313312 ∧
      2147313312 < 18446744073513073217 ∧
      mul_mod 10520478337 10520478337 18446744073513073217 = 18446744071720919484 ∧
      18446744071720919484 + 2147313312 = U64 + 158681180 ∧
      rho_f 18446744073513073217 2147313312 10520478337 = 158681180 ∧
      (10520478337 ^ 2 + 2147313312) % 18446744073513073217 = 355159579 := by
  have hN : (18446744073513073217 : Nat) ≠ 1 := by decide
  have hrej : is_prime_mr 18446744073513073217 = false := by decide!
  have hrestart : ∀ F, rho_loop rand_seq 18446744073513073217 (F + 21415) 2 2 1 0 =
      rho_loop rand_seq 18446744073513073217 F 91505 91505 2147313312 2 := by
    intro F
    have e : F + 21415 = F + 1 + 21414 := by omega
    rw [e, rho_loop_walk rand_seq hN 21414 2 2 _ _ walk_before_restart (F + 1) 0]
    exact rho_loop_restart_step rand_seq (by decide!) F 0 (by decide) (by decide)
      (by decide) (by decide)
  have hstep : ∀ F, rho_loop rand_seq 18446744073513073217 (F + 1) 91505 91505 2147313312 2 =
      rho_loop rand_seq 18446744073513073217 F 10520478337 158681180 2147313312 2 :=
    fun F => rho_loop_walk rand_seq hN 1 91505 91505 _ _ (by decide!) F 2
  refine ⟨by decide, by decide, by decide, hrej, hrestart, hstep, ?_, by decide!, by decide,
    by decide, by decide, by decide!, by decide, by decide!, by decide!⟩
  intro F calls
  have e : F + 21416 = F + 1 + 21415 := by omega
  have hloop : rho_loop rand_seq 18446744073513073217 (F + 21416) 2 2 1 0 =
      rho_loop rand_seq 18446744073513073217 F 10520478337 158681180 2147313312 2 := by
    rw [e, hrestart (F + 1), hstep F]
  exact pollard_rho_of_loop_eq rand_seq calls (by decide) hrej hloop

/-- C15: for `1 <= n < 2^64` the shift loop of `get_omega` and `calculate_T` returns an odd
`m` and a `k <= 63` with `n = 2^k m`, and it does so after exactly `k` iterations (a budget
of `k` suffices). -/
theorem shift_loop_terminates (n : Nat) (hn : 1 ≤ n) (hn64 : n < U64) :
    ∃ m k, shift_loop 64 n 0 = Run.ret (m, k) ∧ k ≤ 63 ∧ m % 2 = 1 ∧ n = 2 ^ k * m ∧
      shift_loop k n 0 = Run.ret (m, k) := by
  obtain ⟨m, k, hodd, hnm, hk⟩ := odd_part_exists hn hn64
  refine ⟨m, k, ?_, hk, hodd, by rw [hnm, mul_comm], ?_⟩
  · rw [hnm, shift_loop_pow hodd k 64 0 (by omega), Nat.zero_add]
  · rw [hnm, shift_loop_pow hodd k k 0 (le_refl k), Nat.zero_add]

/-- C15 at `n = 2^63` (63 iterations) . -/
theorem shift_loop_terminates_witness :
    (1 ≤ 9223372036854775808 ∧ 9223372036854775808 < U64) ∧
      shift_loop 64 9223372036854775808 0 = Run.ret (1, 63) ∧
      ∃ m k, shift_loop 64 9223372036854775808 0 = Run.ret (m, k) ∧ k ≤ 63 ∧ m % 2 = 1 ∧
        9223372036854775808 = 2 ^ k * m ∧ shift_loop k 9223372036854775808 0 = Run.ret (m, k) :=
  ⟨by decide, by decide,
    shift_loop_terminates 9223372036854775808 (by decide) (by decide)⟩

/-- C18 fails at `exp = 0`: `power(base, 0, 1)` returns the initial `res = 1` for every
`base` (the loop is not entered), while `base^0 mod 1 = 0`; here at `base = 5`. -/
theorem power_mod_one_exp_zero :
    power 5 0 1 = 1 ∧ 5 ^ 0 % 1 = 0 ∧ ∀ base : Nat, power base 0 1 = 1 ∧ base ^ 0 % 1 = 0 :=
  ⟨by decide, by decide, fun base => ⟨rfl, Nat.mod_one _⟩⟩

/-- C14: let `n >= 2` and let the step budget `fuel` cover the bit length of `n`. Then (1) a
refinement step `pollard_rho(factor)` on a rejected `factor >= 2` yields `f` with
`2 <= f < factor`; (2) an iteration of the extraction loop isolates a `factor >= 2` dividing
`n` and leaves `1 <= n' < n`; and, if every `pollard_rho` call on a rejected divisor of `n`
returns, (3) the extraction loop returns within `log2 n` iterations and (4)
`count_divisors` returns. -/
theorem count_divisors_terminates (rnd : Nat → Nat) (fuel n : Nat) (hn : 2 ≤ n)
    (hfuel : n < 2 ^ fuel)
    (hret : ∀ m w, m ∣ n → 2 ≤ m → is_prime_mr m = false →
      ∃ r, pollard_rho rnd fuel m w = Run.ret r) :
    (∀ factor f w w1, 2 ≤ factor → is_prime_mr factor = false →
        pollard_rho rnd fuel factor w = Run.ret (f, w1) → 2 ≤ f ∧ f < factor) ∧
      (∀ m w f0 w1 factor w2 fs m1 fs1, 2 ≤ m → is_prime_mr m = false →
        pollard_rho rnd fuel m w = Run.ret (f0, w1) →
        refine_factor rnd fuel fuel f0 w1 = Run.ret (factor, w2) →
        divide_out factor fuel m fs = Run.ret (m1, fs1) →
        2 ≤ factor ∧ factor ∣ m ∧ 1 ≤ m1 ∧ m1 < m) ∧
      (∀ w, ∃ r, extract_loop rnd fuel (Nat.log2 n) n [] w = Run.ret r) ∧
      (∀ w, ∃ l w1, factor_list rnd fuel n w = Run.ret (l, w1)) ∧
      (n < U64 → ∀ w, ∃ d w1, count_divisors rnd fuel n w = Run.ret (d, w1)) := by
  have hlist : ∀ w, ∃ l w1, factor_list rnd fuel n w = Run.ret (l, w1) := by
    intro w
    have hlt : n < 2 ^ (fuel + 1) := by
      rw [pow_succ]
      omega
    obtain ⟨⟨n1, fs, w1⟩, hx⟩ := extract_loop_returns hfuel (by omega) hret fuel n [] w
      (by omega) (dvd_refl n) hlt
    unfold factor_list
    rw [hx]
    exact ⟨_, _, rfl⟩
  refine ⟨?_, ?_, ?_, hlist, ?_⟩
  · intro factor f w w1 h2 hrej h
    obtain ⟨-, a, b⟩ := pollard_rho_proper h2 hrej h
    exact ⟨a, b⟩
  · intro m w f0 w1 factor w2 fs m1 fs1 h2 hrej hr hq hd
    obtain ⟨hf0d, hf01, -⟩ := pollard_rho_proper h2 hrej hr
    obtain ⟨hfd, hf2, -⟩ := refine_factor_ret rnd fuel _ _ _ _ _ (by omega) hq
    have hfm : factor ∣ m := dvd_trans hfd hf0d
    obtain ⟨a, b⟩ := divide_out_decreases hf2 (by omega) hfm hd
    exact ⟨hf2, hfm, a, by omega⟩
  · intro w
    exact extract_loop_returns hfuel (by omega) hret (Nat.log2 n) n [] w (by omega)
      (dvd_refl n) Nat.lt_log2_self
  · intro hn64 w
    obtain ⟨l, w1, hf⟩ := hlist w
    obtain ⟨hs, hprod, hacc, hne⟩ := factor_list_ret (by omega) hf
    have hg := group_loop_of_bounds l (hne hn) hs
      (fun x hx => is_prime_mr_two_le (hacc x hx)) (hprod ▸ hn64)
    exact ⟨_, w1, by rw [count_divisors_of_list (by omega) hf (hne hn), hg]⟩

/-- C14 at `n = 45` with a budget of 10: the calls on the rejected divisors 9, 15 and 45
return without drawing a random number, and `count_divisors(45) = 6`. -/
theorem count_divisors_terminates_witness :
    (2 ≤ 45 ∧ 45 < 2 ^ 10 ∧
      ∀ m w, m ∣ 45 → 2 ≤ m → is_prime_mr m = false →
        ∃ r, pollard_rho (fun _ => 0) 10 m w = Run.ret r) ∧
    count_divisors (fun _ => 0) 10 45 ⟨0, []⟩ = Run.ret (6, ⟨0, [45]⟩) ∧
    (∀ w, ∃ r, extract_loop (fun _ => 0) 10 (Nat.log2 45) 45 [] w = Run.ret r) ∧
    (∀ w, ∃ l w1, factor_list (fun _ => 0) 10 45 w = Run.ret (l, w1)) ∧
    (∀ w, ∃ d w1, count_divisors (fun _ => 0) 10 45 w = Run.ret (d, w1)) := by
  have hret : ∀ m w, m ∣ 45 → 2 ≤ m → is_prime_mr m = false →
      ∃ r, pollard_rho (fun _ => 0) 10 m w = Run.ret r := by
    intro m w hm h2 hrej
    have hle : m ≤ 45 := Nat.le_of_dvd (by norm_num) hm
    interval_cases m <;> first
      | exact absurd hm (by decide)
      | exact absurd hrej (by decide)
      | exact ⟨_, by with_unfolding_all rfl⟩
  exact ⟨⟨by decide, by decide, hret⟩, by decide,
    (count_divisors_terminates (fun _ => 0) 10 45 (by decide) (by decide) hret).2.2.1,
    (count_divisors_terminates (fun _ => 0) 10 45 (by decide) (by decide) hret).2.2.2.1,
    (count_divisors_terminates (fun _ => 0) 10 45 (by decide) (by decide) hret).2.2.2.2
      (by decide)⟩

/-- C16: let `1 <= n < 2^64` have odd part `m` with `n = 2^k m`. (1) For every `j`,
`d(2 n 2^j) - 4 = d(m) (k + j + 2) - 4`. (2) Let `d_m = d(m)` be a count returned for `m`,
let the cache lookup of `calculate_T(n)` yield this `d_m`, and let `j < 12`. Then with
`omega_val = (double)d(2 n 2^j) - 4.0`, the `omega` of `n 2^j`: iteration `j` of the loop of
`calculate_T` logs its division on the integer `d(2 n 2^j)`, and multiplies `prod` by
`1.0 / (1.0 + omega_val)` (lines 204-205) before it adds `prod` to `total` and tests it;
and when `n 2^j < 2^64`, `get_omega(n 2^j)`, run from the state in which that count was
obtained, returns this same `omega_val`. -/
theorem omega_term_identity {F : Type} (ops : FloatOps F) (rnd : Nat → Nat)
    (fuel n m k j d_m : Nat) (w w1 : World) (st st1 : TState)
    (hn : 1 ≤ n) (hn64 : n < U64) (hj : j < 12)
    (hs : shift_loop 64 n 0 = Run.ret (m, k))
    (hd : count_divisors rnd fuel m w = Run.ret (d_m, w1))
    (hdm : d_m = m.divisors.card)
    (hl : lookup_dm rnd fuel n m st = Run.ret (d_m, st1)) :
    (∀ i : Nat, ((2 * n * 2 ^ i).divisors.card : ℤ) - 4 =
        (m.divisors.card : ℤ) * (k + i + 2) - 4) ∧
      ∃ omega_val : F,
        omega_val = ops.sub (ops.ofU64 (2 * n * 2 ^ j).divisors.card) ops.four ∧
        (∀ (left : Nat) (total prod : F),
          calculate_T_loop ops rnd fuel n (left + 1) j total prod st =
            if ops.lt (ops.mul prod (ops.div ops.one (ops.add ops.one omega_val))) ops.tol
            then
              Run.ret (ops.add total
                  (ops.mul prod (ops.div ops.one (ops.add ops.one omega_val))),
                log_div st1 j (2 * n * 2 ^ j).divisors.card)
            else
              calculate_T_loop ops rnd fuel n left (j + 1)
                (ops.add total (ops.mul prod (ops.div ops.one (ops.add ops.one omega_val))))
                (ops.mul prod (ops.div ops.one (ops.add ops.one omega_val)))
                (log_div st1 j (2 * n * 2 ^ j).divisors.card)) ∧
        (∀ prod : F, next_prod ops prod d_m k j =
          ops.mul prod (ops.div ops.one (ops.add ops.one omega_val))) ∧
        (n * 2 ^ j < U64 → get_omega ops rnd fuel (n * 2 ^ j) w = Run.ret (omega_val, w1)) := by
  obtain ⟨hodd, -, hnm⟩ := shift_loop_ret _ _ _ _ _ hs
  rw [Nat.sub_zero] at hnm
  have hcard : ∀ i : Nat, (2 * n * 2 ^ i).divisors.card = m.divisors.card * (k + i + 2) := by
    intro i
    have he : 2 * n * 2 ^ i = 2 ^ (k + i + 1) * m := by
      rw [hnm, pow_succ, pow_add]
      ring
    rw [he, card_divisors_two_pow_mul hodd, mul_comm]
  have harg : omega_arg d_m k j = (2 * n * 2 ^ j).divisors.card := by
    rw [omega_arg_no_wrap hn hn64 hj hs hd, hcard j, hdm]
  refine ⟨?_, _, rfl, ?_, ?_, ?_⟩
  · intro i
    rw [hcard i]
    push_cast
    ring
  · intro left total prod
    conv_lhs => unfold calculate_T_loop
    simp only [hs, hl, next_prod, harg]
  · intro prod
    unfold next_prod
    rw [harg]
  · intro hlt
    have hshift : shift_loop 64 (n * 2 ^ j) 0 = Run.ret (m, k + j) := by
      have hkj : k + j ≤ 64 := by
        by_contra hge
        have h1 : 2 ^ 64 ≤ 2 ^ (k + j) := Nat.pow_le_pow_right (by norm_num) (by omega)
        have h2 : 2 ^ (k + j) ≤ m * 2 ^ (k + j) := Nat.le_mul_of_pos_left _ (by omega)
        have h3 : n * 2 ^ j = m * 2 ^ (k + j) := by rw [hnm, pow_add, mul_assoc]
        unfold U64 at hlt
        omega
      have h3 : n * 2 ^ j = m * 2 ^ (k + j) := by rw [hnm, pow_add, mul_assoc]
      rw [h3, shift_loop_pow hodd (k + j) 64 0 hkj, Nat.zero_add]
    have harg0 : omega_arg d_m (k + j) 0 = (2 * n * 2 ^ j).divisors.card := by
      rw [← harg]
      rfl
    unfold get_omega
    simp only [hshift, hd, harg0]

/-- C16 at `n = 12`, `j = 3`, with the slot keyed by 12: `m = 3`, `k = 2`, `d(3) = 2`,
`d(2 * 12 * 8) = d(192) = 14`, so that `omega_val = 10` and iteration 3 multiplies `prod` by
`1/11`. -/
theorem omega_term_identity_witness :
    (1 ≤ 12 ∧ 12 < U64 ∧ 3 < 12 ∧ shift_loop 64 12 0 = Run.ret (3, 2) ∧
      count_divisors (fun _ => 0) 10 3 ⟨0, []⟩ = Run.ret (2, ⟨0, []⟩) ∧
      2 = (3 : Nat).divisors.card ∧
      lookup_dm (fun _ => 0) 10 12 3 ⟨12, 2, ⟨0, []⟩, []⟩ =
        Run.ret (2, ⟨12, 2, ⟨0, []⟩, []⟩)) ∧
    (2 * 12 * 2 ^ 3).divisors.card = 14 ∧
    ∃ omega_val : ℚ, omega_val = 10 ∧
      (∀ prod : ℚ, next_prod exact_ops prod 2 2 3 = prod * (1 / (1 + omega_val))) ∧
      get_omega exact_ops (fun _ => 0) 10 (12 * 2 ^ 3) ⟨0, []⟩ =
        Run.ret (omega_val, ⟨0, []⟩) := by
  have hc : (2 * 12 * 2 ^ 3).divisors.card = 14 := by decide
  obtain ⟨-, omega_val, hval, -, hprod, hget⟩ :=
    omega_term_identity exact_ops (fun _ => 0) 10 12 3 2 3 2 ⟨0, []⟩ ⟨0, []⟩
      ⟨12, 2, ⟨0, []⟩, []⟩ ⟨12, 2, ⟨0, []⟩, []⟩ (by decide) (by decide) (by decide)
      (by decide) (by decide) (by decide) (by decide)
  refine ⟨⟨by decide, by decide, by decide, by decide, by decide, by decide, by decide⟩,
    hc, omega_val, ?_, hprod, hget (by decide)⟩
  rw [hval, hc]
  norm_num [exact_ops]

/-- C20: for every `n < 2^64` (zero included), every random stream and every step budget,
`count_divisors(n)` never faults, and on return every `pollard_rho` call it has logged has
an argument `a >= 4` that `is_prime_mr` rejects. On such an argument the walk never computes
`rand() % 0`, and a restart sets `x = y = rand() % (a - 2) + 2` in `[2, a)` and
`c = rand() % (a - 1) + 1` in `[1, a)`; on the argument 1 the first step of the walk
divides by zero. -/
theorem count_divisors_calls_safe (rnd : Nat → Nat) (fuel n : Nat) (w : World)
    (hn64 : n < U64) :
    count_divisors rnd fuel n w ≠ Run.fault ∧
      (∀ d w1, count_divisors rnd fuel n w = Run.ret (d, w1) →
        ∃ new, w1.calls = w.calls ++ new ∧
          ∀ a ∈ new, 4 ≤ a ∧ a < U64 ∧ is_prime_mr a = false) ∧
      (∀ a, 4 ≤ a → a < U64 → ∀ fuel1 x y c r,
        rho_loop rnd a fuel1 x y c r ≠ Run.fault ∧
        (Nat.gcd (abs_diff (rho_f a c x) (rho_f a c (rho_f a c y))) a = a →
          rho_loop rnd a (fuel1 + 1) x y c r =
            rho_loop rnd a fuel1 (rnd r % (a - 2) + 2) (rnd r % (a - 2) + 2)
              (rnd (r + 1) % (a - 1) + 1) (r + 2) ∧
          2 ≤ rnd r % (a - 2) + 2 ∧ rnd r % (a - 2) + 2 < a ∧
          1 ≤ rnd (r + 1) % (a - 1) + 1 ∧ rnd (r + 1) % (a - 1) + 1 < a)) ∧
      pollard_rho rnd (fuel + 1) 1 w = Run.fault := by
  refine ⟨?_, ?_, ?_, ?_⟩
  · by_cases h1 : n = 1
    · unfold count_divisors
      rw [if_pos h1]
      simp
    · have hsafe := (extract_loop_safe rnd fuel fuel n [] w hn64).1
      cases hf : factor_list rnd fuel n w with
      | ret p =>
        obtain ⟨l, w1⟩ := p
        by_cases he : l = []
        · unfold count_divisors
          rw [if_neg h1, hf, he]
          simp
        · rcases Nat.eq_zero_or_pos n with h0 | hpos
          · exfalso
            apply he
            rw [h0] at hf
            unfold factor_list at hf
            cases fuel <;> simp [extract_loop] at hf <;> exact hf.1
          · obtain ⟨hs, hprod, hacc, -⟩ := factor_list_ret hpos hf
            rw [count_divisors_of_list h1 hf he, group_loop_of_bounds l he hs
              (fun x hx => is_prime_mr_two_le (hacc x hx)) (hprod ▸ hn64)]
            simp
      | fault =>
        exfalso
        unfold factor_list at hf
        cases hx : extract_loop rnd fuel fuel n [] w with
        | ret p => rw [hx] at hf; simp at hf
        | fault => exact hsafe hx
        | spin => rw [hx] at hf; simp at hf
      | spin =>
        unfold count_divisors
        rw [if_neg h1, hf]
        simp
  · intro d w1 h
    by_cases h1 : n = 1
    · unfold count_divisors at h
      rw [if_pos h1] at h
      simp only [Run.ret.injEq, Prod.mk.injEq] at h
      exact ⟨[], by rw [← h.2, List.append_nil], by simp⟩
    · unfold count_divisors at h
      rw [if_neg h1] at h
      cases hx : extract_loop rnd fuel fuel n [] w with
      | ret p =>
        obtain ⟨n1, fs, w2⟩ := p
        obtain ⟨l, hf⟩ : ∃ l, factor_list rnd fuel n w = Run.ret (l, w2) :=
          ⟨_, by unfold factor_list; rw [hx]⟩
        rw [hf] at h
        simp only at h
        have hw : w2 = w1 := by
          split_ifs at h
          · simp only [Run.ret.injEq, Prod.mk.injEq] at h
            exact h.2
          · cases hg : group_loop l 1 1 <;> rw [hg] at h <;> simp at h
            exact h.2
        rw [← hw]
        exact (extract_loop_safe rnd fuel fuel n [] w hn64).2 n1 fs w2 hx
      | fault =>
        unfold factor_list at h
        rw [hx] at h
        exact absurd h (by simp)
      | spin =>
        unfold factor_list at h
        rw [hx] at h
        exact absurd h (by simp)
  · intro a h4 h64 fuel1 x y c r
    refine ⟨rho_loop_no_fault rnd (by omega) h64 fuel1 x y c r, ?_⟩
    intro hg
    obtain ⟨e2, e1, ex, ec, b1, b2, b3, b4⟩ :=
      restart_in_range (show 3 ≤ a by omega) h64 (rnd r) (rnd (r + 1))
    refine ⟨?_, b1, b2, b3, b4⟩
    conv_lhs => unfold rho_loop
    rw [if_pos hg, if_neg (by rw [e2]; omega), if_neg (by rw [e1]; omega), ex, ec]
  · have hrej : is_prime_mr 1 = false := by decide
    unfold pollard_rho
    rw [if_neg (by decide), hrej]
    simp only [Bool.false_eq_true, if_false]
    have : rho_loop rnd 1 (fuel + 1) 2 2 1 w.rpos = Run.fault := by
      unfold rho_loop
      have hg : Nat.gcd (abs_diff (rho_f 1 1 2) (rho_f 1 1 (rho_f 1 1 2))) 1 = 1 :=
        Nat.gcd_one_right _
      rw [if_pos hg, if_neg (by decide), if_pos (by decide)]
    rw [this]

/-- C20 at `n = 360`: the calls logged are on 360 and 45. -/
theorem count_divisors_calls_safe_witness :
    360 < U64 ∧
      count_divisors (fun _ => 0) 10 360 ⟨0, []⟩ = Run.ret (24, ⟨0, [360, 45]⟩) ∧
      count_divisors (fun _ => 0) 10 360 ⟨0, []⟩ ≠ Run.fault ∧
      pollard_rho (fun _ => 0) (10 + 1) 1 ⟨0, []⟩ = Run.fault :=
  ⟨by decide, by decide,
    (count_divisors_calls_safe (fun _ => 0) 10 360 ⟨0, []⟩ (by decide)).1,
    (count_divisors_calls_safe (fun _ => 0) 10 360 ⟨0, []⟩ (by decide)).2.2.2⟩


end KM
